import Mathlib

/-!
Verification development for the Network-Flow-Calculator application.

The repository contains two Python source files, each with a backend function
`solve_max_flow (edges, source, sink)`:

* `src/src/network_flow_app.py`: validates that every declared capacity is
  non-negative (raising `ValueError` otherwise), aggregates duplicate ordered
  pairs by summing their capacities into an insertion-ordered map, builds a
  directed graph and delegates to the library routine
  `nx.maximum_flow (..., flow_func=edmonds_karp)`.
* `src/network_flow_app.py`: performs no validation and no aggregation
  (repeated `add_edge` calls overwrite the capacity attribute of an ordered
  pair, last declaration wins) and delegates to the library-default
  `nx.maximum_flow`.

Node identifiers are free-text strings, capacities are Python floats.  We
embed node identifiers as `String` and capacities as `ℚ` (the specification
treats capacities as arbitrary non-negative reals and asks for exact
residual arithmetic).  The maximum-flow engine itself is library code that
is not part of the repository sources, so it is modelled from the
specification (sections 4.2-4.5): residual capacities per ordered pair,
breadth-first shortest augmenting-path search, repeated augmentation until
saturation, and flow extraction `flow(u,v) = capacity(u,v) - residual(u,v)`
with the two directions of an antiparallel pair kept logically independent
in the exported result (negative net flow on a declared pair is exported
as zero, exactly as the library's flow extraction does).
-/

/-- Error kinds of the solver core: `InvalidCapacity` corresponds to the
`ValueError` raised during aggregation for a negative capacity, and
`UnknownNode` to the failure when source or sink does not appear in any
declared edge.  Source-equals-sink is a defined zero-flow result, not an
error. -/
inductive FlowError where
  | InvalidCapacity : FlowError
  | UnknownNode : FlowError
deriving DecidableEq, Repr

/-- Successful solver output: the maximum-flow value and the flow
assignment, a list mapping ordered node pairs to their realized flow with
zero-flow pairs omitted. -/
structure SolveResult where
  flowValue : ℚ
  flows : List ((String × String) × ℚ)
deriving DecidableEq, Repr

/-- Aggregated capacity map: an association list from ordered node pairs to
total declared capacity, in first-insertion order (the iteration order of a
Python dict). -/
abbrev CapList := List ((String × String) × ℚ)

instance {ε α : Type _} [DecidableEq ε] [DecidableEq α] : DecidableEq (Except ε α) := by
  intro a b
  cases a <;> cases b <;>
    first
      | (apply isFalse; intro h; exact Except.noConfusion h)
      | exact decidable_of_iff _ (by rw [Except.error.injEq])
      | exact decidable_of_iff _ (by rw [Except.ok.injEq])

/-- Add `c` to the entry of key `k`, or append a fresh entry, exactly as
`cap_map[(u, v)] = cap_map.get((u, v), 0) + cap` behaves on a Python dict:
an existing key keeps its position, a new key goes to the end. -/
def upsert : CapList → String × String → ℚ → CapList
  | [], k, c => [(k, c)]
  | (k', c') :: rest, k, c =>
    if k' = k then (k', c' + c) :: rest else (k', c') :: upsert rest k c

/-- Aggregation loop of `solve_max_flow` in `src/src/network_flow_app.py`:
walk the declared edges in order, fail on the first negative capacity,
otherwise accumulate per ordered pair. -/
def aggAux (acc : CapList) : List (String × String × ℚ) → Except FlowError CapList
  | [] => .ok acc
  | (u, v, c) :: rest =>
    if c < 0 then .error .InvalidCapacity else aggAux (upsert acc (u, v) c) rest

/-- Capacity aggregator of `src/src/network_flow_app.py` (lines 14-19). -/
def aggregate (edges : List (String × String × ℚ)) : Except FlowError CapList :=
  aggAux [] edges

/-- Nodes of the aggregated network, in the order they first appear, as the
graph construction `G.add_edge (u, v, capacity)` introduces them. -/
def nodesOf (capList : CapList) : List String :=
  capList.foldl
    (fun ns e =>
      let ns' := if e.1.1 ∈ ns then ns else ns ++ [e.1.1]
      if e.1.2 ∈ ns' then ns' else ns' ++ [e.1.2]) []

/-- Total declared capacity of an ordered pair in the aggregated network
(`0` for a pair that was never declared). -/
def capFun (capList : CapList) (u v : String) : ℚ :=
  (capList.lookup (u, v)).getD 0

/-- Modelled from the spec (section 4.2, residual network construction of
the library engine, absent from the sources): for every aggregated entry
ensure a forward arc and a reverse arc, in declaration order. -/
def arcsOf (capList : CapList) : List (String × String) :=
  capList.foldl
    (fun acc e =>
      let acc' := if (e.1.1, e.1.2) ∈ acc then acc else acc ++ [(e.1.1, e.1.2)]
      if (e.1.2, e.1.1) ∈ acc' then acc' else acc' ++ [(e.1.2, e.1.1)]) []

/-- Modelled from the spec (section 4.3): successors of `u` in the residual
network, i.e. targets of arcs leaving `u` that still have strictly positive
residual capacity, in the network's own arc enumeration order. -/
def succs (arcs : List (String × String)) (r : String → String → ℚ) (u : String) :
    List String :=
  (arcs.filter (fun (a : String × String) => decide (a.1 = u ∧ 0 < r a.1 a.2))).map Prod.snd

/-- One visit attempt of the breadth-first search: node `v`, reached from
`u` along the partial path `p`, is recorded (visited list, next frontier
with its path) unless it was already discovered. -/
def visitStep (u : String) (p : List (String × String))
    (st : List String × List (String × List (String × String))) (v : String) :
    List String × List (String × List (String × String)) :=
  if v ∈ st.1 then st else (st.1 ++ [v], st.2 ++ [(v, p ++ [(u, v)])])

/-- Modelled from the spec (section 4.3): expand one breadth-first layer.
Every frontier entry carries the arc path by which it was discovered; the
expansion returns the enlarged visited list and the next frontier. -/
def bfsLayer (arcs : List (String × String)) (r : String → String → ℚ)
    (frontier : List (String × List (String × String))) (vis : List String) :
    List String × List (String × List (String × String)) :=
  frontier.foldl (fun st e => (succs arcs r e.1).foldl (visitStep e.1 e.2) st) (vis, [])

/-- Modelled from the spec (section 4.3): iterate breadth-first layers until
the sink is discovered (returning its shortest augmenting path) or the
frontier is exhausted (returning `none`). -/
def bfsRounds (arcs : List (String × String)) (r : String → String → ℚ)
    (sink : String) :
    Nat → List (String × List (String × String)) → List String →
      Option (List (String × String))
  | 0, _, _ => none
  | _ + 1, [], _ => none
  | fuel + 1, e :: fr, vis =>
    match (bfsLayer arcs r (e :: fr) vis).2.lookup sink with
    | some p => some p
    | none =>
      bfsRounds arcs r sink fuel (bfsLayer arcs r (e :: fr) vis).2
        (bfsLayer arcs r (e :: fr) vis).1

/-- Modelled from the spec (section 4.3): breadth-first augmenting-path
search from `source` towards `sink`.  The round budget covers every node
that could ever be discovered, and is proved sufficient below. -/
def bfs (arcs : List (String × String)) (r : String → String → ℚ)
    (source sink : String) : Option (List (String × String)) :=
  bfsRounds arcs r sink ((source :: arcs.map Prod.snd).dedup.length)
    [(source, [])] [source]

/-- Bottleneck of a path: the minimum residual capacity among its arcs. -/
def bottleneck (r : String → String → ℚ) : List (String × String) → ℚ
  | [] => 0
  | a :: rest => rest.foldl (fun m x => min m (r x.1 x.2)) (r a.1 a.2)

/-- Modelled from the spec (section 4.4): push `b` units along the path
`p`, subtracting `b` from every forward arc's residual and adding it to the
corresponding reverse arc's residual. -/
def augment (r : String → String → ℚ) (p : List (String × String)) (b : ℚ) :
    String → String → ℚ :=
  fun u v =>
    if (u, v) ∈ p then r u v - b else if (v, u) ∈ p then r u v + b else r u v

/-- Modelled from the spec (section 4.4): the max-flow engine loop.  While
an augmenting path exists, push its bottleneck and accumulate the total
flow; stop at saturation.  The engine state is the residual-capacity
function together with the running flow value; the iteration budget is
proved sufficient below. -/
def ekLoop (arcs : List (String × String)) (s t : String) :
    Nat → (String → String → ℚ) → ℚ → (String → String → ℚ) × ℚ
  | 0, r, F => (r, F)
  | fuel + 1, r, F =>
    match bfs arcs r s t with
    | none => (r, F)
    | some p => ekLoop arcs s t fuel (augment r p (bottleneck r p)) (F + bottleneck r p)

/-- Product of the denominators of all aggregated capacities; every
residual capacity stays an integer multiple of its reciprocal. -/
def denomProd (capList : CapList) : ℕ :=
  capList.foldl (fun d e => d * e.2.den) 1

/-- Residual capacity remaining on arcs out of `s`, summed over the node
set; it shrinks by one bottleneck per augmentation and bounds the number of
iterations. -/
def sumFrom (N : Finset String) (r : String → String → ℚ) (s : String) : ℚ :=
  Finset.sum N (fun v => r s v)

/-- Iteration budget of the engine: one more than the initial residual mass
out of the source, measured in units of `1 / denomProd`. -/
def ekFuel (capList : CapList) (s : String) : ℕ :=
  (sumFrom (nodesOf capList).toFinset (capFun capList) s * (denomProd capList : ℚ)).num.toNat + 1

/-- Run the max-flow engine on an aggregated network, starting from the
residual capacities equal to the declared capacities and zero flow. -/
def ekRun (capList : CapList) (s t : String) : (String → String → ℚ) × ℚ :=
  ekLoop (arcsOf capList) s t (ekFuel capList s) (capFun capList) 0

/-- Modelled from the spec (section 4.5, flow extraction of the library
engine): realized flow on each declared pair is its capacity minus its
final residual, the two directions of an antiparallel pair kept logically
independent (a negative net value exports as zero), and pairs with zero
flow are omitted from the externally reported assignment, as the caller
`update_ui_after_solve` reports only entries with `f > 0`. -/
def extractFlows (capList : CapList) (r : String → String → ℚ) :
    List ((String × String) × ℚ) :=
  (capList.map (fun e => (e.1, max 0 (e.2 - r e.1.1 e.1.2)))).filter
    (fun x => decide (0 < x.2))

/-- Backend `solve_max_flow` of `src/src/network_flow_app.py` (lines 9-29):
aggregate with validation, then solve.  The engine behind
`nx.maximum_flow (..., flow_func=edmonds_karp)` is modelled from the spec:
a source equal to the sink is a defined zero-flow result with an empty
assignment (section 7, `SourceEqualsSink`, stated there to hold for any
edge set), a source or sink absent from the declared edges fails with
`UnknownNode` before any search, and otherwise the Edmonds-Karp engine
runs to saturation.  `solveOnNetwork` is the part of the pipeline from the
built network onwards. -/
def solveOnNetwork (capList : CapList) (source sink : String) :
    Except FlowError SolveResult :=
  if source = sink then .ok ⟨0, []⟩
  else
    if source ∈ nodesOf capList ∧ sink ∈ nodesOf capList then
      .ok ⟨(ekRun capList source sink).2,
           extractFlows capList (ekRun capList source sink).1⟩
    else .error .UnknownNode

def solve_max_flow (edges : List (String × String × ℚ)) (source sink : String) :
    Except FlowError SolveResult :=
  match aggregate edges with
  | .error e => .error e
  | .ok capList => solveOnNetwork capList source sink

/-- Set the value of key `k`, or append a fresh entry: the behaviour of
`G.add_edge (u, v, capacity=c)` in `src/network_flow_app.py`, where a
repeated ordered pair overwrites the stored capacity. -/
def setKey : CapList → String × String → ℚ → CapList
  | [], k, c => [(k, c)]
  | (k', c') :: rest, k, c =>
    if k' = k then (k, c) :: rest else (k', c') :: setKey rest k c

/-- Graph construction of `solve_max_flow` in `src/network_flow_app.py`
(lines 10-15): no validation, no aggregation, last declaration of an
ordered pair wins. -/
def buildCaps (edges : List (String × String × ℚ)) : CapList :=
  edges.foldl (fun acc e => setKey acc (e.1, e.2.1) e.2.2) []

/-- Backend `solve_max_flow` of `src/network_flow_app.py` (lines 10-15).
Modelled from the spec: the library-default `nx.maximum_flow` engine it
delegates to is not part of the sources; since the maximum-flow value is
determined by the network alone, the engine is modelled by the same
specification engine as the other variant, applied to this variant's
last-declaration-wins network. -/
def solve_max_flow_v1 (edges : List (String × String × ℚ)) (source sink : String) :
    Except FlowError SolveResult :=
  solveOnNetwork (buildCaps edges) source sink

/-- Valid input in the sense of the specification: all declared capacities
non-negative, source and sink each appear in some declared triple, and
source is distinct from sink. -/
def ValidInput (edges : List (String × String × ℚ)) (s t : String) : Prop :=
  (∀ e ∈ edges, 0 ≤ e.2.2) ∧ s ≠ t ∧
    (∃ e ∈ edges, e.1 = s ∨ e.2.1 = s) ∧ (∃ e ∈ edges, e.1 = t ∨ e.2.1 = t)

instance (edges : List (String × String × ℚ)) (s t : String) :
    Decidable (ValidInput edges s t) := by
  unfold ValidInput; infer_instance

/-- Total capacity of the cut `(S, complement of S)` measured on the raw
declared edges: the sum of the capacities of all triples leaving `S`. -/
def cutCapacity (edges : List (String × String × ℚ)) (S : List String) : ℚ :=
  ((edges.filter (fun (e : String × String × ℚ) => decide (e.1 ∈ S ∧ e.2.1 ∉ S))).map
    (fun e => e.2.2)).sum

/-- Aggregated declared capacity of the ordered pair `(u, v)`: the sum of
the capacities of all raw triples declaring that pair. -/
def aggCap (edges : List (String × String × ℚ)) (u v : String) : ℚ :=
  ((edges.filter (fun (e : String × String × ℚ) => decide (e.1 = u ∧ e.2.1 = v))).map
    (fun e => e.2.2)).sum

/-- Realized flow that a returned flow assignment carries on the ordered
pair `(u, v)`; pairs omitted from the assignment carry zero. -/
def flowOf (flows : List ((String × String) × ℚ)) (u v : String) : ℚ :=
  (flows.lookup (u, v)).getD 0

/-- Total realized flow entering `v` according to a flow assignment. -/
def inflowTo (flows : List ((String × String) × ℚ)) (v : String) : ℚ :=
  ((flows.filter (fun (e : (String × String) × ℚ) => decide (e.1.2 = v))).map
    (fun e => e.2)).sum

/-- Total realized flow leaving `v` according to a flow assignment. -/
def outflowFrom (flows : List ((String × String) × ℚ)) (v : String) : ℚ :=
  ((flows.filter (fun (e : (String × String) × ℚ) => decide (e.1.1 = v))).map
    (fun e => e.2)).sum

/-! ### Basic lemmas about the aggregation stage -/

/-- Keys of an association list. -/
def keysOf (L : CapList) : List (String × String) := L.map Prod.fst

theorem keysOf_upsert (acc : CapList) (k : String × String) (c : ℚ) :
    keysOf (upsert acc k c) = if k ∈ keysOf acc then keysOf acc else keysOf acc ++ [k] := by
  induction acc with
  | nil => simp [upsert, keysOf]
  | cons e rest ih =>
    by_cases h : e.1 = k
    · simp [upsert, keysOf, h]
    · simp only [upsert, keysOf, List.map_cons, h, if_false]
      simp only [keysOf] at ih
      rw [ih]
      by_cases hk : k ∈ List.map Prod.fst rest <;>
        simp [hk, List.mem_cons, Ne.symm h]

theorem mem_keysOf_upsert {acc : CapList} {k k' : String × String} {c : ℚ} :
    k' ∈ keysOf (upsert acc k c) ↔ k' ∈ keysOf acc ∨ k' = k := by
  rw [keysOf_upsert]
  by_cases h : k ∈ keysOf acc
  · simp only [h, if_true]
    constructor
    · exact fun hm => Or.inl hm
    · rintro (hm | rfl) <;> [exact hm; exact h]
  · simp [h]

theorem nodup_keysOf_upsert {acc : CapList} {k : String × String} {c : ℚ}
    (h : (keysOf acc).Nodup) : (keysOf (upsert acc k c)).Nodup := by
  rw [keysOf_upsert]
  by_cases hk : k ∈ keysOf acc
  · simpa [hk] using h
  · simp only [hk, if_false]
    simp [List.nodup_append, h, hk]

theorem aggAux_keys {edges : List (String × String × ℚ)} :
    ∀ {acc L : CapList}, aggAux acc edges = .ok L →
      ∀ k, k ∈ keysOf L → k ∈ keysOf acc ∨ ∃ e ∈ edges, (e.1, e.2.1) = k := by
  induction edges with
  | nil =>
    intro acc L h k hk
    simp only [aggAux] at h
    cases h
    exact Or.inl hk
  | cons e rest ih =>
    intro acc L h k hk
    simp only [aggAux] at h
    by_cases hc : e.2.2 < 0
    · simp [hc] at h
    · simp only [hc, if_false] at h
      rcases ih h k hk with hacc | ⟨e', he', hke⟩
      · rcases mem_keysOf_upsert.1 hacc with hacc' | rfl
        · exact Or.inl hacc'
        · exact Or.inr ⟨e, List.mem_cons_self e rest, rfl⟩
      · exact Or.inr ⟨e', List.mem_cons_of_mem e he', hke⟩

theorem aggAux_keys_nodup {edges : List (String × String × ℚ)} :
    ∀ {acc L : CapList}, aggAux acc edges = .ok L →
      (keysOf acc).Nodup → (keysOf L).Nodup := by
  induction edges with
  | nil =>
    intro acc L h hnd
    simp only [aggAux] at h
    cases h
    exact hnd
  | cons e rest ih =>
    intro acc L h hnd
    simp only [aggAux] at h
    by_cases hc : e.2.2 < 0
    · simp [hc] at h
    · simp only [hc, if_false] at h
      exact ih h (nodup_keysOf_upsert hnd)

theorem values_nonneg_upsert {acc : CapList} {k : String × String} {c : ℚ}
    (hacc : ∀ e ∈ acc, 0 ≤ e.2) (hc : 0 ≤ c) :
    ∀ e ∈ upsert acc k c, 0 ≤ e.2 := by
  induction acc with
  | nil =>
    intro e he
    simp only [upsert, List.mem_singleton] at he
    subst he
    exact hc
  | cons a rest ih =>
    intro e he
    by_cases h : a.1 = k
    · simp only [upsert, h, if_true] at he
      rcases List.mem_cons.1 he with rfl | hrest
      · exact add_nonneg (hacc a (List.mem_cons_self a rest)) hc
      · exact hacc e (List.mem_cons_of_mem a hrest)
    · simp only [upsert, h, if_false] at he
      rcases List.mem_cons.1 he with rfl | hrest
      · exact hacc _ (List.mem_cons_self _ _)
      · exact ih (fun e' he' => hacc e' (List.mem_cons_of_mem a he')) e hrest

theorem aggAux_values_nonneg {edges : List (String × String × ℚ)} :
    ∀ {acc L : CapList}, aggAux acc edges = .ok L →
      (∀ e ∈ acc, 0 ≤ e.2) → ∀ e ∈ L, 0 ≤ e.2 := by
  induction edges with
  | nil =>
    intro acc L h hacc
    simp only [aggAux] at h
    cases h
    exact hacc
  | cons e rest ih =>
    intro acc L h hacc
    simp only [aggAux] at h
    by_cases hc : e.2.2 < 0
    · simp [hc] at h
    · simp only [hc, if_false] at h
      exact ih h (values_nonneg_upsert hacc (not_lt.1 hc))

theorem aggAux_ok_of_nonneg {edges : List (String × String × ℚ)}
    (h : ∀ e ∈ edges, 0 ≤ e.2.2) :
    ∀ acc, ∃ L, aggAux acc edges = .ok L := by
  induction edges with
  | nil => exact fun acc => ⟨acc, rfl⟩
  | cons e rest ih =>
    intro acc
    have hc : ¬e.2.2 < 0 := not_lt.2 (h e (List.mem_cons_self e rest))
    have := ih (fun e' he' => h e' (List.mem_cons_of_mem e he')) (upsert acc (e.1, e.2.1) e.2.2)
    simpa [aggAux, hc] using this

theorem aggregate_ok_of_nonneg {edges : List (String × String × ℚ)}
    (h : ∀ e ∈ edges, 0 ≤ e.2.2) : ∃ L, aggregate edges = .ok L :=
  aggAux_ok_of_nonneg h []

theorem aggAux_error_of_neg {edges : List (String × String × ℚ)}
    (h : ∃ e ∈ edges, e.2.2 < 0) :
    ∀ acc, aggAux acc edges = .error .InvalidCapacity := by
  induction edges with
  | nil => simp at h
  | cons e rest ih =>
    intro acc
    by_cases hc : e.2.2 < 0
    · simp [aggAux, hc]
    · rcases h with ⟨e', he', hneg⟩
      rcases List.mem_cons.1 he' with rfl | hrest
      · exact absurd hneg hc
      · simp only [aggAux, hc, if_false]
        exact ih ⟨e', hrest, hneg⟩ _

/-! ### Node-set lemmas -/

theorem mem_addNode {l : List String} {a x : String} :
    (x ∈ if a ∈ l then l else l ++ [a]) ↔ x ∈ l ∨ x = a := by
  split_ifs with h
  · exact ⟨Or.inl, fun hx => hx.elim id (fun he => he ▸ h)⟩
  · simp [List.mem_append]

theorem nodup_addNode {l : List String} {a : String} (h : l.Nodup) :
    (if a ∈ l then l else l ++ [a]).Nodup := by
  split_ifs with ha
  · exact h
  · simp [List.nodup_append, h, ha]

theorem mem_nodesOf_aux (L : CapList) :
    ∀ (init : List String) (x : String),
      x ∈ L.foldl
        (fun ns e =>
          let ns' := if e.1.1 ∈ ns then ns else ns ++ [e.1.1]
          if e.1.2 ∈ ns' then ns' else ns' ++ [e.1.2]) init ↔
      x ∈ init ∨ ∃ e ∈ L, x = e.1.1 ∨ x = e.1.2 := by
  induction L with
  | nil => simp
  | cons a rest ih =>
    intro init x
    rw [List.foldl_cons, ih]
    have hstep :
        (x ∈ (let ns' := if a.1.1 ∈ init then init else init ++ [a.1.1]
              if a.1.2 ∈ ns' then ns' else ns' ++ [a.1.2])) ↔
          (x ∈ init ∨ x = a.1.1) ∨ x = a.1.2 := by
      show (x ∈ if a.1.2 ∈ (if a.1.1 ∈ init then init else init ++ [a.1.1])
          then (if a.1.1 ∈ init then init else init ++ [a.1.1])
          else (if a.1.1 ∈ init then init else init ++ [a.1.1]) ++ [a.1.2]) ↔ _
      rw [mem_addNode, mem_addNode]
    rw [hstep]
    constructor
    · rintro (((hi | hx) | hx) | ⟨e, he, hx⟩)
      · exact Or.inl hi
      · exact Or.inr ⟨a, List.mem_cons_self a rest, Or.inl hx⟩
      · exact Or.inr ⟨a, List.mem_cons_self a rest, Or.inr hx⟩
      · exact Or.inr ⟨e, List.mem_cons_of_mem a he, hx⟩
    · rintro (hi | ⟨e, he, hx⟩)
      · exact Or.inl (Or.inl (Or.inl hi))
      · rcases List.mem_cons.1 he with rfl | hrest
        · rcases hx with hx | hx
          · exact Or.inl (Or.inl (Or.inr hx))
          · exact Or.inl (Or.inr hx)
        · exact Or.inr ⟨e, hrest, hx⟩

theorem mem_nodesOf {L : CapList} {x : String} :
    x ∈ nodesOf L ↔ ∃ e ∈ L, x = e.1.1 ∨ x = e.1.2 := by
  rw [nodesOf, mem_nodesOf_aux]
  simp

theorem nodesOf_nodup (L : CapList) : (nodesOf L).Nodup := by
  have key : ∀ (init : List String), init.Nodup →
      (L.foldl
        (fun ns e =>
          let ns' := if e.1.1 ∈ ns then ns else ns ++ [e.1.1]
          if e.1.2 ∈ ns' then ns' else ns' ++ [e.1.2]) init).Nodup := by
    induction L with
    | nil => exact fun init h => h
    | cons a rest ih =>
      intro init h
      rw [List.foldl_cons]
      exact ih _ (nodup_addNode (nodup_addNode h))
  exact key [] List.nodup_nil

theorem nodesOf_sub_edges {edges : List (String × String × ℚ)} {L : CapList}
    (h : aggregate edges = .ok L) {x : String} (hx : x ∈ nodesOf L) :
    ∃ e ∈ edges, x = e.1 ∨ x = e.2.1 := by
  rcases mem_nodesOf.1 hx with ⟨e, he, hxe⟩
  have hk : (e.1.1, e.1.2) ∈ keysOf L := by
    simpa [keysOf] using List.mem_map_of_mem Prod.fst he
  rcases aggAux_keys h _ hk with h0 | ⟨e', he', hk'⟩
  · simp [keysOf] at h0
  · rcases Prod.mk.injEq .. ▸ hk' with ⟨h1, h2⟩
    rcases hxe with rfl | rfl
    · exact ⟨e', he', Or.inl h1.symm⟩
    · exact ⟨e', he', Or.inr h2.symm⟩

/-! ### Error-handling and shape claims -/

theorem solve_max_flow_of_ok {edges : List (String × String × ℚ)} {L : CapList}
    (h : aggregate edges = .ok L) (s t : String) :
    solve_max_flow edges s t = solveOnNetwork L s t := by
  unfold solve_max_flow
  rw [h]

theorem solve_max_flow_of_error {edges : List (String × String × ℚ)} {e : FlowError}
    (h : aggregate edges = .error e) (s t : String) :
    solve_max_flow edges s t = .error e := by
  unfold solve_max_flow
  rw [h]

/-- C5: an edge list containing a negative capacity makes `solve_max_flow`
fail with `InvalidCapacity`; the failure arises inside the aggregation loop,
before any graph, residual state or engine run is produced (structurally,
the error short-circuits everything after `aggregate`). -/
theorem solve_max_flow_invalidCapacity (edges : List (String × String × ℚ))
    (s t : String) (h : ∃ e ∈ edges, e.2.2 < 0) :
    solve_max_flow edges s t = .error .InvalidCapacity :=
  solve_max_flow_of_error (aggAux_error_of_neg h []) s t

theorem solve_max_flow_invalidCapacity_witness :
    (∃ e ∈ [("a", "b", (-1 : ℚ))], e.2.2 < 0) ∧
      solve_max_flow [("a", "b", (-1 : ℚ))] "x" "y" = .error .InvalidCapacity :=
  ⟨by with_unfolding_all decide, solve_max_flow_invalidCapacity _ "x" "y" (by with_unfolding_all decide)⟩

/-- C6: with non-negative capacities and source equal to sink,
`solve_max_flow` succeeds with maximum flow `0` and an empty flow
assignment, whatever the edge set; the engine loop is never entered. -/
theorem solve_max_flow_source_eq_sink (edges : List (String × String × ℚ))
    (s : String) (h : ∀ e ∈ edges, 0 ≤ e.2.2) :
    solve_max_flow edges s s = .ok ⟨0, []⟩ := by
  obtain ⟨L, hL⟩ := aggregate_ok_of_nonneg h
  rw [solve_max_flow_of_ok hL, solveOnNetwork, if_pos rfl]

theorem solve_max_flow_source_eq_sink_witness :
    (∀ e ∈ [("a", "b", (2 : ℚ))], 0 ≤ e.2.2) ∧
      solve_max_flow [("a", "b", (2 : ℚ))] "S" "S" = .ok ⟨0, []⟩ :=
  ⟨by with_unfolding_all decide, solve_max_flow_source_eq_sink _ "S" (by with_unfolding_all decide)⟩

/-- C7 counterexample: the claim demands `UnknownNode` whenever source or
sink is absent from the declared edges, but with source equal to sink the
solver returns the defined zero-flow success even for an absent node, so
the claim fails at this concrete input. -/
theorem solve_max_flow_unknownNode_counterexample :
    solve_max_flow [("a", "b", (1 : ℚ))] "z" "z" = .ok ⟨0, []⟩ := by with_unfolding_all decide

/-- C7 (amended with source distinct from sink): with non-negative
capacities and distinct source and sink, if the source or the sink appears
in no declared edge then `solve_max_flow` fails with `UnknownNode`; the
check precedes the engine run, so no search or residual mutation happens. -/
theorem solve_max_flow_unknownNode (edges : List (String × String × ℚ))
    (s t : String) (hc : ∀ e ∈ edges, 0 ≤ e.2.2) (hst : s ≠ t)
    (habs : (∀ e ∈ edges, e.1 ≠ s ∧ e.2.1 ≠ s) ∨ (∀ e ∈ edges, e.1 ≠ t ∧ e.2.1 ≠ t)) :
    solve_max_flow edges s t = .error .UnknownNode := by
  obtain ⟨L, hL⟩ := aggregate_ok_of_nonneg hc
  have hnotin : ¬(s ∈ nodesOf L ∧ t ∈ nodesOf L) := by
    rintro ⟨hs, ht⟩
    rcases habs with habs | habs
    · rcases nodesOf_sub_edges hL hs with ⟨e, he, hor⟩
      rcases habs e he with ⟨h1, h2⟩
      rcases hor with rfl | rfl
      · exact h1 rfl
      · exact h2 rfl
    · rcases nodesOf_sub_edges hL ht with ⟨e, he, hor⟩
      rcases habs e he with ⟨h1, h2⟩
      rcases hor with rfl | rfl
      · exact h1 rfl
      · exact h2 rfl
  rw [solve_max_flow_of_ok hL, solveOnNetwork, if_neg hst, if_neg hnotin]

theorem solve_max_flow_unknownNode_witness :
    (∀ e ∈ [("a", "b", (1 : ℚ))], 0 ≤ e.2.2) ∧ "z" ≠ "b" ∧
      solve_max_flow [("a", "b", (1 : ℚ))] "z" "b" = .error .UnknownNode :=
  ⟨by with_unfolding_all decide, by with_unfolding_all decide,
    solve_max_flow_unknownNode _ "z" "b" (by with_unfolding_all decide) (by with_unfolding_all decide) (Or.inl (by with_unfolding_all decide))⟩

/-- C8: every entry of the flow assignment that `solve_max_flow` returns to
its caller carries a strictly positive flow amount; zero-flow pairs are
omitted from the reported result. -/
theorem solve_max_flow_positive_flows (edges : List (String × String × ℚ))
    (s t : String) (res : SolveResult)
    (hok : solve_max_flow edges s t = .ok res) :
    ∀ p q, (p, q) ∈ res.flows → 0 < q := by
  intro p q hmem
  rcases hagg : aggregate edges with e | L
  · rw [solve_max_flow_of_error hagg] at hok
    cases hok
  · rw [solve_max_flow_of_ok hagg, solveOnNetwork] at hok
    by_cases hst : s = t
    · rw [if_pos hst] at hok
      rcases hok with ⟨⟩
      simp at hmem
    · rw [if_neg hst] at hok
      by_cases hmemN : s ∈ nodesOf L ∧ t ∈ nodesOf L
      · rw [if_pos hmemN] at hok
        rcases hok with ⟨⟩
        simp only [extractFlows, List.mem_filter] at hmem
        exact of_decide_eq_true hmem.2
      · rw [if_neg hmemN] at hok
        cases hok

theorem solve_max_flow_positive_flows_witness :
    solve_max_flow [("a", "b", (3 : ℚ)), ("a", "b", (5 : ℚ))] "a" "b" =
        .ok ⟨8, [(("a", "b"), 8)]⟩ ∧ (0 : ℚ) < 8 :=
  ⟨by with_unfolding_all decide,
    solve_max_flow_positive_flows [("a", "b", (3 : ℚ)), ("a", "b", (5 : ℚ))] "a" "b"
      ⟨8, [(("a", "b"), 8)]⟩ (by with_unfolding_all decide) ("a", "b") 8 (by with_unfolding_all decide)⟩

/-- C9: the solver is deterministic; invoked twice on the same edge list in
the same declared order with the same source and sink, it returns the
identical result (the embedding is a pure function of exactly these
arguments, matching the code, which consults no other state). -/
theorem solve_max_flow_deterministic (edges₁ edges₂ : List (String × String × ℚ))
    (s₁ s₂ t₁ t₂ : String) (he : edges₁ = edges₂) (hs : s₁ = s₂) (ht : t₁ = t₂) :
    solve_max_flow edges₁ s₁ t₁ = solve_max_flow edges₂ s₂ t₂ := by
  rw [he, hs, ht]

theorem solve_max_flow_deterministic_witness :
    solve_max_flow [("a", "b", (1 : ℚ))] "a" "b" =
      solve_max_flow [("a", "b", (1 : ℚ))] "a" "b" :=
  solve_max_flow_deterministic _ _ "a" "a" "b" "b" rfl rfl rfl

/-! ### Aggregation merge lemmas (claim C4) -/

/-- Add `c` to the entry with key `k` in place, leaving the list unchanged
if the key is absent; on lists that do contain `k` this is exactly
`upsert`, and it commutes with later insertions. -/
def addVal : CapList → String × String → ℚ → CapList
  | [], _, _ => []
  | (k', c') :: rest, k, c =>
    if k' = k then (k', c' + c) :: rest else (k', c') :: addVal rest k c

theorem upsert_eq_addVal {acc : CapList} {k : String × String} {c : ℚ}
    (h : k ∈ keysOf acc) : upsert acc k c = addVal acc k c := by
  induction acc with
  | nil => simp [keysOf] at h
  | cons e rest ih =>
    by_cases he : e.1 = k
    · simp [upsert, addVal, he]
    · rcases List.mem_cons.1 h with hk | hk
      · exact absurd hk.symm he
      · simp only [upsert, addVal, he, if_false]
        rw [ih hk]

theorem upsert_split {acc : CapList} {k : String × String} {c c' : ℚ} :
    upsert acc k (c + c') = addVal (upsert acc k c) k c' := by
  induction acc with
  | nil => simp [upsert, addVal]
  | cons e rest ih =>
    by_cases he : e.1 = k
    · simp [upsert, addVal, he, add_assoc]
    · simp only [upsert, addVal, he, if_false]
      rw [ih]

theorem keysOf_addVal (acc : CapList) (k : String × String) (c : ℚ) :
    keysOf (addVal acc k c) = keysOf acc := by
  induction acc with
  | nil => rfl
  | cons e rest ih =>
    by_cases he : e.1 = k
    · simp [addVal, keysOf, he]
    · simp only [addVal, keysOf, List.map_cons, he, if_false]
      simp only [keysOf] at ih
      rw [ih]

theorem addVal_upsert_comm {acc : CapList} {k k' : String × String} {c c' : ℚ}
    (h : k ∈ keysOf acc) :
    upsert (addVal acc k c) k' c' = addVal (upsert acc k' c') k c := by
  induction acc with
  | nil => simp [keysOf] at h
  | cons e rest ih =>
    by_cases hek : e.1 = k
    · by_cases hek' : e.1 = k'
      · subst hek
        subst hek'
        simp [addVal, upsert]
        ring
      · subst hek
        simp [addVal, upsert, hek']
    · have hk : k ∈ keysOf rest := by
        rcases List.mem_cons.1 h with hk | hk
        · exact absurd hk.symm hek
        · exact hk
      by_cases hek' : e.1 = k'
      · subst hek'
        simp [addVal, upsert, hek]
      · simp only [addVal, upsert, hek, hek', if_false]
        rw [ih hk]

theorem aggAux_keys_mono {l : List (String × String × ℚ)} :
    ∀ {acc L : CapList}, aggAux acc l = .ok L →
      ∀ {k}, k ∈ keysOf acc → k ∈ keysOf L := by
  induction l with
  | nil =>
    intro acc L h k hk
    cases h
    exact hk
  | cons e rest ih =>
    intro acc L h k hk
    simp only [aggAux] at h
    by_cases hc : e.2.2 < 0
    · simp [hc] at h
    · simp only [hc, if_false] at h
      exact ih h (mem_keysOf_upsert.2 (Or.inl hk))

theorem aggAux_addVal {l : List (String × String × ℚ)} :
    ∀ {acc : CapList} {k : String × String} {c : ℚ}, k ∈ keysOf acc →
      aggAux (addVal acc k c) l = (aggAux acc l).map (fun L => addVal L k c) := by
  induction l with
  | nil => intro acc k c _; rfl
  | cons e rest ih =>
    intro acc k c h
    simp only [aggAux]
    by_cases hc : e.2.2 < 0
    · simp only [hc, if_true]
      rfl
    · simp only [hc, if_false]
      rw [addVal_upsert_comm h, ih (mem_keysOf_upsert.2 (Or.inl h))]

theorem aggAux_append (acc : CapList) (l1 l2 : List (String × String × ℚ)) :
    aggAux acc (l1 ++ l2) =
      match aggAux acc l1 with
      | .ok B => aggAux B l2
      | .error e => .error e := by
  induction l1 generalizing acc with
  | nil => simp [aggAux]
  | cons e rest ih =>
    simp only [List.cons_append, aggAux]
    by_cases hc : e.2.2 < 0
    · simp [hc]
    · simp only [hc, if_false]
      exact ih _

theorem aggregate_merge {pre mid post : List (String × String × ℚ)}
    {a b : String} {c1 c2 : ℚ} (h1 : 0 ≤ c1) (h2 : 0 ≤ c2) :
    aggregate (pre ++ (a, b, c1) :: (mid ++ (a, b, c2) :: post)) =
      aggregate (pre ++ (a, b, c1 + c2) :: (mid ++ post)) := by
  unfold aggregate
  rw [aggAux_append [] pre ((a, b, c1) :: (mid ++ (a, b, c2) :: post)),
    aggAux_append [] pre ((a, b, c1 + c2) :: (mid ++ post))]
  rcases hpre : aggAux [] pre with e | A
  · rfl
  · show aggAux A ((a, b, c1) :: (mid ++ (a, b, c2) :: post)) =
      aggAux A ((a, b, c1 + c2) :: (mid ++ post))
    have hc1 : ¬(c1 < 0) := not_lt.2 h1
    have hc2 : ¬(c2 < 0) := not_lt.2 h2
    have hc12 : ¬(c1 + c2 < 0) := not_lt.2 (add_nonneg h1 h2)
    simp only [aggAux, hc1, hc2, hc12, if_false]
    have hk1 : (a, b) ∈ keysOf (upsert A (a, b) c1) := mem_keysOf_upsert.2 (Or.inr rfl)
    rw [upsert_split, aggAux_addVal hk1,
      aggAux_append (upsert A (a, b) c1) mid ((a, b, c2) :: post),
      aggAux_append (upsert A (a, b) c1) mid post]
    rcases hmid : aggAux (upsert A (a, b) c1) mid with e | B
    · rfl
    · show aggAux B ((a, b, c2) :: post) =
        Except.map (fun L => addVal L (a, b) c2) (aggAux B post)
      simp only [aggAux, hc2, if_false]
      rw [upsert_eq_addVal (aggAux_keys_mono hmid hk1),
        aggAux_addVal (aggAux_keys_mono hmid hk1)]

/-- C4 counterexample: for an edge list that contains a negative capacity,
merging two declarations of the same ordered pair changes the result: the
original list fails with `InvalidCapacity` during aggregation while the
merged list, whose single capacity is non-negative, solves successfully, so
the claim is false for arbitrary edge lists. -/
theorem solve_max_flow_merge_counterexample :
    solve_max_flow [("a", "b", (-1 : ℚ)), ("a", "b", (5 : ℚ))] "a" "b" ≠
      solve_max_flow [("a", "b", (-1 : ℚ) + 5)] "a" "b" := by
  with_unfolding_all decide

/-- C4 (amended to non-negative merged capacities): replacing two entries
with the same ordered pair `(a, b)` and non-negative capacities `c1`, `c2`
by the single entry `(a, b, c1 + c2)` at the first entry's position leaves
the solved network and the whole solver result unchanged.  In particular,
declaring `(a, b, 3)` and `(a, b, 5)` is the same as declaring `(a, b, 8)`
once. -/
theorem solve_max_flow_merge_pairs (pre mid post : List (String × String × ℚ))
    (a b : String) (c1 c2 : ℚ) (h1 : 0 ≤ c1) (h2 : 0 ≤ c2) (s t : String) :
    solve_max_flow (pre ++ (a, b, c1) :: (mid ++ (a, b, c2) :: post)) s t =
      solve_max_flow (pre ++ (a, b, c1 + c2) :: (mid ++ post)) s t := by
  unfold solve_max_flow
  rw [aggregate_merge h1 h2]

theorem solve_max_flow_merge_pairs_witness :
    (0 : ℚ) ≤ 3 ∧ (0 : ℚ) ≤ 5 ∧
      solve_max_flow [("a", "b", (3 : ℚ)), ("a", "b", (5 : ℚ))] "a" "b" =
        solve_max_flow [("a", "b", (3 : ℚ) + 5)] "a" "b" :=
  ⟨by norm_num, by norm_num,
    solve_max_flow_merge_pairs [] [] [] "a" "b" 3 5 (by norm_num) (by norm_num) "a" "b"⟩

/-! ### Paths and breadth-first-search invariants -/

/-- Chain predicate: the arc list `p` forms a consecutive walk from `a` to
`b`. -/
def Chain : List (String × String) → String → String → Prop
  | [], a, b => a = b
  | x :: rest, a, b => x.1 = a ∧ Chain rest x.2 b

/-- Augmenting path produced by the search: a consecutive walk from `s` to
`t` whose nodes are pairwise distinct and whose arcs all belong to the
residual network with strictly positive residual capacity. -/
def GoodPath (arcs : List (String × String)) (r : String → String → ℚ)
    (p : List (String × String)) (s t : String) : Prop :=
  Chain p s t ∧ (s :: p.map Prod.snd).Nodup ∧ ∀ x ∈ p, x ∈ arcs ∧ 0 < r x.1 x.2

/-- Invariant of one discovered frontier entry `(v, path)`: the path runs
from the source to `v`, is simple, uses positive-residual arcs of the
network, and all its nodes are already visited. -/
def GoodEntry (arcs : List (String × String)) (r : String → String → ℚ)
    (s : String) (vis : List String) (e : String × List (String × String)) : Prop :=
  Chain e.2 s e.1 ∧ (s :: e.2.map Prod.snd).Nodup ∧
    (∀ x ∈ e.2, x ∈ arcs ∧ 0 < r x.1 x.2) ∧
    ∀ x ∈ s :: e.2.map Prod.snd, x ∈ vis

/-- Invariant of the intermediate state of one layer expansion. -/
def LayerState (arcs : List (String × String)) (r : String → String → ℚ)
    (s : String) (vis : List String)
    (st : List String × List (String × List (String × String))) : Prop :=
  st.1 = vis ++ st.2.map Prod.fst ∧ st.1.Nodup ∧
    (∀ e ∈ st.2, GoodEntry arcs r s st.1 e) ∧
    ∀ e ∈ st.2, e.1 ∈ arcs.map Prod.snd

theorem chain_append {p q : List (String × String)} {a m b : String}
    (hp : Chain p a m) (hq : Chain q m b) : Chain (p ++ q) a b := by
  induction p generalizing a with
  | nil => cases hp; exact hq
  | cons x rest ih => exact ⟨hp.1, ih hp.2⟩

theorem chain_last_mem {p : List (String × String)} {a b : String}
    (h : Chain p a b) : b ∈ a :: p.map Prod.snd := by
  induction p generalizing a with
  | nil =>
    have hab : a = b := h
    rw [← hab]
    exact List.mem_singleton_self a
  | cons x rest ih =>
    have h' := ih h.2
    simp only [List.map_cons, List.mem_cons] at h' ⊢
    tauto

theorem mem_succs {arcs : List (String × String)} {r : String → String → ℚ}
    {u v : String} : v ∈ succs arcs r u ↔ (u, v) ∈ arcs ∧ 0 < r u v := by
  simp only [succs, List.mem_map, List.mem_filter, decide_eq_true_eq]
  constructor
  · rintro ⟨a, ⟨ha, rfl, hpos⟩, rfl⟩
    exact ⟨ha, hpos⟩
  · rintro ⟨ha, hpos⟩
    exact ⟨(u, v), ⟨ha, rfl, hpos⟩, rfl⟩

theorem succs_subset_targets {arcs : List (String × String)}
    {r : String → String → ℚ} {u v : String} (h : v ∈ succs arcs r u) :
    v ∈ arcs.map Prod.snd := by
  rcases List.mem_map.1 h with ⟨a, ha, rfl⟩
  exact List.mem_map_of_mem Prod.snd (List.mem_of_mem_filter ha)

theorem lookup_eq_some_mem {α β : Type _} [BEq α] [LawfulBEq α]
    {l : List (α × β)} {k : α} {b : β}
    (h : l.lookup k = some b) : (k, b) ∈ l := by
  induction l with
  | nil => cases h
  | cons e rest ih =>
    rw [List.lookup] at h
    rcases hbe : k == e.1 with _ | _
    · rw [hbe] at h
      exact List.mem_cons_of_mem e (ih h)
    · rw [hbe] at h
      cases h
      have : k = e.1 := by simpa using hbe
      rw [this]
      exact List.mem_cons_self _ _

theorem lookup_isSome_of_mem_fst {α β : Type _} [BEq α] [LawfulBEq α]
    {l : List (α × β)} {k : α}
    (h : k ∈ l.map Prod.fst) : (l.lookup k).isSome := by
  induction l with
  | nil => simp at h
  | cons e rest ih =>
    rw [List.lookup]
    rcases hbe : k == e.1 with _ | _
    · rw [List.map_cons] at h
      rcases List.mem_cons.1 h with hk | hk
      · rw [beq_eq_false_iff_ne] at hbe
        exact absurd hk hbe
      · exact ih hk
    · simp

theorem goodEntry_mono {arcs : List (String × String)} {r : String → String → ℚ}
    {s : String} {vis vis' : List String}
    {e : String × List (String × String)}
    (h : GoodEntry arcs r s vis e) (hsub : ∀ x ∈ vis, x ∈ vis') :
    GoodEntry arcs r s vis' e :=
  ⟨h.1, h.2.1, h.2.2.1, fun x hx => hsub x (h.2.2.2 x hx)⟩

theorem layer_inner {arcs : List (String × String)} {r : String → String → ℚ}
    {s : String} {vis : List String} {u : String} {p : List (String × String)}
    (hgood : GoodEntry arcs r s vis (u, p)) :
    ∀ (vs : List String), (∀ v ∈ vs, v ∈ succs arcs r u) →
    ∀ st, LayerState arcs r s vis st →
      LayerState arcs r s vis (vs.foldl (visitStep u p) st) ∧
      (∀ x ∈ st.1, x ∈ (vs.foldl (visitStep u p) st).1) ∧
      (∀ v ∈ vs, v ∈ (vs.foldl (visitStep u p) st).1) := by
  intro vs
  induction vs with
  | nil => exact fun _ st hst => ⟨hst, fun x hx => hx, by simp⟩
  | cons v vs' ih =>
    intro hvs st hst
    rw [List.foldl_cons]
    have hv : v ∈ succs arcs r u := hvs v (List.mem_cons_self _ _)
    have hstep : LayerState arcs r s vis (visitStep u p st v) ∧
        (∀ x ∈ st.1, x ∈ (visitStep u p st v).1) ∧ v ∈ (visitStep u p st v).1 := by
      rw [visitStep]
      by_cases hvin : v ∈ st.1
      · rw [if_pos hvin]
        exact ⟨hst, fun x hx => hx, hvin⟩
      · rw [if_neg hvin]
        rcases hst with ⟨heq, hnd, hent, htgt⟩
        have hvissub : ∀ x ∈ vis, x ∈ st.1 := by
          intro x hx
          rw [heq]
          exact List.mem_append_left _ hx
        refine ⟨⟨?_, ?_, ?_, ?_⟩, ?_, ?_⟩
        · show st.1 ++ [v] = vis ++ (st.2 ++ [(v, p ++ [(u, v)])]).map Prod.fst
          rw [heq, List.map_append, List.append_assoc]
          rfl
        · show (st.1 ++ [v]).Nodup
          simp [List.nodup_append, hnd, hvin]
        · intro e he
          rcases List.mem_append.1 he with he | he
          · exact goodEntry_mono (hent e he) (fun x hx => List.mem_append_left _ hx)
          · rcases List.mem_singleton.1 he with rfl
            have hchain : Chain (p ++ [(u, v)]) s v :=
              chain_append hgood.1 ⟨rfl, rfl⟩
            have hpnodes : ∀ x ∈ s :: p.map Prod.snd, x ∈ st.1 :=
              fun x hx => hvissub x (hgood.2.2.2 x hx)
            refine ⟨hchain, ?_, ?_, ?_⟩
            · show (s :: (p ++ [(u, v)]).map Prod.snd).Nodup
              have : s :: (p ++ [(u, v)]).map Prod.snd =
                  (s :: p.map Prod.snd) ++ [v] := by simp
              rw [this]
              have hvnot : v ∉ s :: p.map Prod.snd := fun hmem => hvin (hpnodes v hmem)
              refine List.Nodup.append hgood.2.1 (List.nodup_singleton v) ?_
              intro x hx hx'
              rcases List.mem_singleton.1 hx' with rfl
              exact hvnot hx
            · intro x hx
              rcases List.mem_append.1 hx with hx | hx
              · exact hgood.2.2.1 x hx
              · rcases List.mem_singleton.1 hx with rfl
                exact ⟨(mem_succs.1 hv).1, (mem_succs.1 hv).2⟩
            · intro x hx
              have : s :: (p ++ [(u, v)]).map Prod.snd =
                  (s :: p.map Prod.snd) ++ [v] := by simp
              rw [this] at hx
              rcases List.mem_append.1 hx with hx | hx
              · exact List.mem_append_left _ (hpnodes x hx)
              · rcases List.mem_singleton.1 hx with rfl
                exact List.mem_append_right _ (List.mem_singleton_self _)
        · intro e he
          rcases List.mem_append.1 he with he | he
          · exact htgt e he
          · rcases List.mem_singleton.1 he with rfl
            exact succs_subset_targets hv
        · exact fun x hx => List.mem_append_left _ hx
        · exact List.mem_append_right _ (List.mem_singleton_self v)
    rcases ih (fun w hw => hvs w (List.mem_cons_of_mem _ hw)) _ hstep.1 with
      ⟨hfin, hmono, hvs'⟩
    refine ⟨hfin, fun x hx => hmono x (hstep.2.1 x hx), ?_⟩
    intro w hw
    rcases List.mem_cons.1 hw with hw' | hw'
    · rw [hw']
      exact hmono v hstep.2.2
    · exact hvs' w hw'

theorem layer_outer {arcs : List (String × String)} {r : String → String → ℚ}
    {s : String} {vis : List String} :
    ∀ (fr : List (String × List (String × String)))
      (st : List String × List (String × List (String × String))),
      (∀ e ∈ fr, GoodEntry arcs r s vis e) → LayerState arcs r s vis st →
      LayerState arcs r s vis
        (fr.foldl (fun st e => (succs arcs r e.1).foldl (visitStep e.1 e.2) st) st) ∧
      (∀ x ∈ st.1,
        x ∈ (fr.foldl (fun st e => (succs arcs r e.1).foldl (visitStep e.1 e.2) st) st).1) ∧
      (∀ e ∈ fr, ∀ v ∈ succs arcs r e.1,
        v ∈ (fr.foldl (fun st e => (succs arcs r e.1).foldl (visitStep e.1 e.2) st) st).1) := by
  intro fr
  induction fr with
  | nil => exact fun st _ hst => ⟨hst, fun x hx => hx, by simp⟩
  | cons e fr' ih =>
    intro st hfr hst
    rw [List.foldl_cons]
    have hegood : GoodEntry arcs r s vis (e.1, e.2) := hfr e (List.mem_cons_self _ _)
    rcases layer_inner hegood (succs arcs r e.1) (fun v hv => hv) st hst with
      ⟨hst1, hmono1, hsucc1⟩
    rcases ih _ (fun e' he' => hfr e' (List.mem_cons_of_mem _ he')) hst1 with
      ⟨hfin, hmono2, hsucc2⟩
    refine ⟨hfin, fun x hx => hmono2 x (hmono1 x hx), ?_⟩
    intro e' he' v hv
    rcases List.mem_cons.1 he' with he'' | he''
    · rw [he''] at hv
      exact hmono2 v (hsucc1 v hv)
    · exact hsucc2 e' he'' v hv

theorem bfsLayer_spec {arcs : List (String × String)} {r : String → String → ℚ}
    {s : String} {frontier : List (String × List (String × String))}
    {vis : List String} (hnd : vis.Nodup)
    (hfr : ∀ e ∈ frontier, GoodEntry arcs r s vis e) :
    LayerState arcs r s vis (bfsLayer arcs r frontier vis) ∧
    (∀ x ∈ vis, x ∈ (bfsLayer arcs r frontier vis).1) ∧
    (∀ e ∈ frontier, ∀ v ∈ succs arcs r e.1,
      v ∈ (bfsLayer arcs r frontier vis).1) := by
  have hst0 : LayerState arcs r s vis (vis, []) := by
    refine ⟨by simp, hnd, by simp, by simp⟩
  exact layer_outer frontier (vis, []) hfr hst0

theorem nodup_subset_length {l bigl : List String} (hnd : l.Nodup)
    (hsub : ∀ x ∈ l, x ∈ bigl) : l.length ≤ bigl.dedup.length := by
  have h1 : l.toFinset.card = l.length := List.toFinset_card_of_nodup hnd
  have h2 : l.toFinset ⊆ bigl.toFinset := by
    intro x hx
    rw [List.mem_toFinset] at hx ⊢
    exact hsub x hx
  have h3 : bigl.toFinset.card = bigl.dedup.length := List.card_toFinset bigl
  calc l.length = l.toFinset.card := h1.symm
    _ ≤ bigl.toFinset.card := Finset.card_le_card h2
    _ = bigl.dedup.length := h3

/-- Round budget of the breadth-first search: the number of distinct nodes
that can ever be discovered (the source plus every arc target). -/
def bfsBound (arcs : List (String × String)) (s : String) : ℕ :=
  (s :: arcs.map Prod.snd).dedup.length

theorem bfsRounds_spec {arcs : List (String × String)} {r : String → String → ℚ}
    {s t : String} (hst : s ≠ t) :
    ∀ (fuel : ℕ) (frontier : List (String × List (String × String)))
      (vis : List String),
      vis.Nodup →
      (∀ e ∈ frontier, GoodEntry arcs r s vis e) →
      (∀ x ∈ vis, x ∈ s :: arcs.map Prod.snd) →
      s ∈ vis → t ∉ vis →
      (∀ u, u ∈ vis → u ∉ frontier.map Prod.fst →
        ∀ v ∈ succs arcs r u, v ∈ vis) →
      (frontier ≠ [] → bfsBound arcs s + 1 ≤ fuel + vis.length) →
      (∀ p, bfsRounds arcs r t fuel frontier vis = some p → GoodPath arcs r p s t) ∧
      (bfsRounds arcs r t fuel frontier vis = none →
        ∃ V : List String, s ∈ V ∧ t ∉ V ∧
          ∀ u v, u ∈ V → (u, v) ∈ arcs → 0 < r u v → v ∈ V) := by
  intro fuel
  induction fuel with
  | zero =>
    intro frontier vis hnd hfr hsub hs ht hclosed hbound
    constructor
    · intro p hp
      cases hp
    · intro _
      rcases hfe : frontier with _ | ⟨e, fr⟩
      · refine ⟨vis, hs, ht, ?_⟩
        intro u v hu harc hrv
        exact hclosed u hu (by simp [hfe]) v (mem_succs.2 ⟨harc, hrv⟩)
      · exfalso
        have h1 := hbound (by rw [hfe]; exact List.cons_ne_nil e fr)
        have h2 : vis.length ≤ bfsBound arcs s := nodup_subset_length hnd hsub
        omega
  | succ fuel ih =>
    intro frontier vis hnd hfr hsub hs ht hclosed hbound
    rcases frontier with _ | ⟨e, fr⟩
    · constructor
      · intro p hp
        cases hp
      · intro _
        refine ⟨vis, hs, ht, ?_⟩
        intro u v hu harc hrv
        exact hclosed u hu (by simp) v (mem_succs.2 ⟨harc, hrv⟩)
    · rcases bfsLayer_spec hnd hfr with ⟨hls, hmono, hsucc⟩
      rcases hls with ⟨heq, hnd', hent', htgt'⟩
      rcases hlk : (bfsLayer arcs r (e :: fr) vis).2.lookup t with _ | p
      · -- sink not discovered this round: recurse
        have hrec :
            bfsRounds arcs r t (fuel + 1) (e :: fr) vis =
              bfsRounds arcs r t fuel (bfsLayer arcs r (e :: fr) vis).2
                (bfsLayer arcs r (e :: fr) vis).1 := by
          rw [bfsRounds, hlk]
        rw [hrec]
        have htnotin : t ∉ (bfsLayer arcs r (e :: fr) vis).1 := by
          rw [heq]
          intro hmemt
          rcases List.mem_append.1 hmemt with hmemt | hmemt
          · exact ht hmemt
          · have := lookup_isSome_of_mem_fst hmemt
            rw [hlk] at this
            cases this
        refine ih (bfsLayer arcs r (e :: fr) vis).2 (bfsLayer arcs r (e :: fr) vis).1
          hnd' hent' ?_ (hmono s hs) htnotin ?_ ?_
        · -- every visited node is the source or an arc target
          intro x hx
          rw [heq] at hx
          rcases List.mem_append.1 hx with hx | hx
          · exact hsub x hx
          · rcases List.mem_map.1 hx with ⟨en, hen, rfl⟩
            exact List.mem_cons_of_mem s (htgt' en hen)
        · -- closure of fully processed nodes
          intro u hu hufr v hv
          rw [heq] at hu
          rcases List.mem_append.1 hu with hu | hu
          · by_cases hufr0 : u ∈ (e :: fr).map Prod.fst
            · rcases List.mem_map.1 hufr0 with ⟨en, hen, rfl⟩
              exact hsucc en hen v hv
            · exact hmono v (hclosed u hu hufr0 v hv)
          · exact absurd hu hufr
        · -- round budget
          intro hne
          have hlen : (bfsLayer arcs r (e :: fr) vis).1.length =
              vis.length + (bfsLayer arcs r (e :: fr) vis).2.length := by
            rw [heq, List.length_append, List.length_map]
          have hpos : 1 ≤ (bfsLayer arcs r (e :: fr) vis).2.length :=
            List.length_pos.2 hne
          have h1 := hbound (List.cons_ne_nil e fr)
          omega
      · -- the sink was discovered: the carried path is an augmenting path
        have hmem := lookup_eq_some_mem hlk
        have hgood := hent' (t, p) hmem
        have hres : bfsRounds arcs r t (fuel + 1) (e :: fr) vis = some p := by
          rw [bfsRounds, hlk]
        constructor
        · intro p' hp'
          rw [hres] at hp'
          rcases Option.some.inj hp' with rfl
          exact ⟨hgood.1, hgood.2.1, hgood.2.2.1⟩
        · intro hnone
          rw [hres] at hnone
          cases hnone

theorem bfs_spec {arcs : List (String × String)} {r : String → String → ℚ}
    {s t : String} (hst : s ≠ t) :
    (∀ p, bfs arcs r s t = some p → GoodPath arcs r p s t) ∧
    (bfs arcs r s t = none →
      ∃ V : List String, s ∈ V ∧ t ∉ V ∧
        ∀ u v, u ∈ V → (u, v) ∈ arcs → 0 < r u v → v ∈ V) := by
  have hinit := @bfsRounds_spec arcs r s t hst (bfsBound arcs s) [(s, [])] [s]
    (List.nodup_singleton s) ?_ ?_ (List.mem_singleton_self s) ?_ ?_ ?_
  · exact hinit
  · intro e he
    rcases List.mem_singleton.1 he with rfl
    exact ⟨rfl, List.nodup_singleton s, by simp, by simp⟩
  · intro x hx
    rcases List.mem_singleton.1 hx with rfl
    exact List.mem_cons_self _ _
  · intro hmem
    rcases List.mem_singleton.1 hmem with rfl
    exact hst rfl
  · intro u hu hufr
    exfalso
    rcases List.mem_singleton.1 hu with rfl
    exact hufr (by simp)
  · intro _
    simp [bfsBound]

/-! ### Combinatorics of simple paths -/

theorem chain_fst_mem {p : List (String × String)} {a b : String}
    (h : Chain p a b) {x : String × String} (hx : x ∈ p) :
    x.1 ∈ a :: p.map Prod.snd := by
  induction p generalizing a with
  | nil => cases hx
  | cons y rest ih =>
    rcases List.mem_cons.1 hx with hx' | hx'
    · rw [hx']
      exact List.mem_cons.2 (Or.inl h.1)
    · have := ih h.2 hx'
      simp only [List.map_cons, List.mem_cons] at this ⊢
      tauto

theorem chain_out_unique {p : List (String × String)} {a b : String}
    (h : Chain p a b) (hnd : (a :: p.map Prod.snd).Nodup)
    {v w1 w2 : String} (h1 : (v, w1) ∈ p) (h2 : (v, w2) ∈ p) : w1 = w2 := by
  induction p generalizing a with
  | nil => cases h1
  | cons y rest ih =>
    have hanot : a ∉ y.2 :: rest.map Prod.snd := by
      have := (List.nodup_cons.1 hnd).1
      rw [List.map_cons] at this
      exact this
    rcases List.mem_cons.1 h1 with h1' | h1'
    · rcases List.mem_cons.1 h2 with h2' | h2'
      · exact congrArg Prod.snd (h1'.trans h2'.symm)
      · exfalso
        have hva : v = a := (congrArg Prod.fst h1').trans h.1
        have hmem : (v, w2).1 ∈ y.2 :: rest.map Prod.snd := chain_fst_mem h.2 h2'
        rw [show (v, w2).1 = v from rfl, hva] at hmem
        exact hanot hmem
    · rcases List.mem_cons.1 h2 with h2' | h2'
      · exfalso
        have hva : v = a := (congrArg Prod.fst h2').trans h.1
        have hmem : (v, w1).1 ∈ y.2 :: rest.map Prod.snd := chain_fst_mem h.2 h1'
        rw [show (v, w1).1 = v from rfl, hva] at hmem
        exact hanot hmem
      · exact ih h.2 (List.nodup_cons.1 hnd).2 h1' h2'

theorem chain_in_unique {p : List (String × String)} {a b : String}
    (h : Chain p a b) (hnd : (a :: p.map Prod.snd).Nodup)
    {v w1 w2 : String} (h1 : (w1, v) ∈ p) (h2 : (w2, v) ∈ p) : w1 = w2 := by
  induction p generalizing a with
  | nil => cases h1
  | cons y rest ih =>
    have hnd' : (y.2 :: rest.map Prod.snd).Nodup := by
      have := (List.nodup_cons.1 hnd).2
      rw [List.map_cons] at this
      exact this
    have hy2not : y.2 ∉ rest.map Prod.snd := (List.nodup_cons.1 hnd').1
    rcases List.mem_cons.1 h1 with h1' | h1'
    · rcases List.mem_cons.1 h2 with h2' | h2'
      · exact congrArg Prod.fst (h1'.trans h2'.symm)
      · exfalso
        have hv : v = y.2 := congrArg Prod.snd h1'
        have hmem : (w2, v).2 ∈ rest.map Prod.snd := List.mem_map_of_mem Prod.snd h2'
        rw [show (w2, v).2 = v from rfl, hv] at hmem
        exact hy2not hmem
    · rcases List.mem_cons.1 h2 with h2' | h2'
      · exfalso
        have hv : v = y.2 := congrArg Prod.snd h2'
        have hmem : (w1, v).2 ∈ rest.map Prod.snd := List.mem_map_of_mem Prod.snd h1'
        rw [show (w1, v).2 = v from rfl, hv] at hmem
        exact hy2not hmem
      · exact ih h.2 hnd' h1' h2'

theorem chain_no_into_start {p : List (String × String)} {a : String}
    (hnd : (a :: p.map Prod.snd).Nodup) {w : String} (hw : (w, a) ∈ p) : False :=
  (List.nodup_cons.1 hnd).1 (List.mem_map_of_mem Prod.snd hw)

theorem chain_exists_out {p : List (String × String)} {a b : String}
    (h : Chain p a b) {v : String} (hv : v ∈ a :: p.map Prod.snd) (hvb : v ≠ b) :
    ∃ w, (v, w) ∈ p := by
  induction p generalizing a with
  | nil =>
    exfalso
    have hab : a = b := h
    rcases List.mem_singleton.1 hv with rfl
    exact hvb hab
  | cons y rest ih =>
    rcases List.mem_cons.1 hv with hv' | hv'
    · refine ⟨y.2, ?_⟩
      have hy : y = (v, y.2) := by
        rw [hv', ← h.1]
      rw [← hy]
      exact List.mem_cons_self _ _
    · rw [List.map_cons] at hv'
      rcases ih h.2 hv' with ⟨w, hw⟩
      exact ⟨w, List.mem_cons_of_mem _ hw⟩

theorem chain_no_out_last {p : List (String × String)} {a b : String}
    (h : Chain p a b) (hnd : (a :: p.map Prod.snd).Nodup)
    {w : String} (hw : (b, w) ∈ p) : False := by
  induction p generalizing a with
  | nil => cases hw
  | cons y rest ih =>
    rcases List.mem_cons.1 hw with hw' | hw'
    · have hba : b = a := (congrArg Prod.fst hw').trans h.1
      have hmem : b ∈ y.2 :: rest.map Prod.snd := chain_last_mem h.2
      rw [hba] at hmem
      have hanot : a ∉ (y :: rest).map Prod.snd := (List.nodup_cons.1 hnd).1
      rw [List.map_cons] at hanot
      exact hanot hmem
    · exact ih h.2 (by
        have := (List.nodup_cons.1 hnd).2
        rw [List.map_cons] at this
        exact this) hw'

theorem chain_no_antiparallel {p : List (String × String)} {a b : String}
    (h : Chain p a b) (hnd : (a :: p.map Prod.snd).Nodup)
    {u v : String} (h1 : (u, v) ∈ p) (h2 : (v, u) ∈ p) : False := by
  induction p generalizing a with
  | nil => cases h1
  | cons y rest ih =>
    have hanot : a ∉ y.2 :: rest.map Prod.snd := by
      have := (List.nodup_cons.1 hnd).1
      rw [List.map_cons] at this
      exact this
    rcases List.mem_cons.1 h1 with h1' | h1'
    · rcases List.mem_cons.1 h2 with h2' | h2'
      · -- both are the head: then u = a and u = the head target
        have hu : u = a := (congrArg Prod.fst h1').trans h.1
        have hu2 : u = y.2 := congrArg Prod.snd h2'
        have hay : a = y.2 := hu.symm.trans hu2
        apply hanot
        rw [hay]
        exact List.mem_cons_self _ _
      · -- head is (u, v), (v, u) in the rest: a occurs again as a target
        have hu : u = a := (congrArg Prod.fst h1').trans h.1
        apply hanot
        apply List.mem_cons_of_mem
        have hmem : (v, u).2 ∈ rest.map Prod.snd := List.mem_map_of_mem Prod.snd h2'
        rw [show (v, u).2 = u from rfl, hu] at hmem
        exact hmem
    · rcases List.mem_cons.1 h2 with h2' | h2'
      · have hv : v = a := (congrArg Prod.fst h2').trans h.1
        apply hanot
        apply List.mem_cons_of_mem
        have hmem : (u, v).2 ∈ rest.map Prod.snd := List.mem_map_of_mem Prod.snd h1'
        rw [show (u, v).2 = v from rfl, hv] at hmem
        exact hmem
      · exact ih h.2 (by
          have := (List.nodup_cons.1 hnd).2
          rw [List.map_cons] at this
          exact this) h1' h2'

/-! ### Residual network, integrality and bottleneck lemmas -/

theorem lookup_eq_of_mem {α β : Type _} [BEq α] [LawfulBEq α] {l : List (α × β)}
    (hnd : (l.map Prod.fst).Nodup) {k : α} {b : β} (h : (k, b) ∈ l) :
    l.lookup k = some b := by
  induction l with
  | nil => cases h
  | cons e rest ih =>
    rw [List.map_cons] at hnd
    rw [List.lookup]
    rcases List.mem_cons.1 h with h' | h'
    · have hk : k = e.1 := congrArg Prod.fst h'
      have hb : b = e.2 := congrArg Prod.snd h'
      rw [show (k == e.1) = true from by rw [hk]; exact beq_self_eq_true e.1, hb]
    · have hkmem : k ∈ rest.map Prod.fst := List.mem_map_of_mem Prod.fst h'
      rcases hbe : k == e.1 with _ | _
      · exact ih (List.nodup_cons.1 hnd).2 h'
      · exfalso
        have : k = e.1 := by simpa using hbe
        rw [this] at hkmem
        exact (List.nodup_cons.1 hnd).1 hkmem

/-- Integrality up to the fixed denominator `D`: the rational is an integer
multiple of `1 / D`. -/
def IsIntMul (D : ℕ) (q : ℚ) : Prop := ∃ n : ℤ, q * (D : ℚ) = (n : ℚ)

theorem IsIntMul.zero {D : ℕ} : IsIntMul D 0 := ⟨0, by simp⟩

theorem IsIntMul.add {D : ℕ} {q1 q2 : ℚ} (h1 : IsIntMul D q1) (h2 : IsIntMul D q2) :
    IsIntMul D (q1 + q2) := by
  rcases h1 with ⟨n1, hn1⟩
  rcases h2 with ⟨n2, hn2⟩
  exact ⟨n1 + n2, by push_cast; rw [add_mul, hn1, hn2]⟩

theorem IsIntMul.sub {D : ℕ} {q1 q2 : ℚ} (h1 : IsIntMul D q1) (h2 : IsIntMul D q2) :
    IsIntMul D (q1 - q2) := by
  rcases h1 with ⟨n1, hn1⟩
  rcases h2 with ⟨n2, hn2⟩
  exact ⟨n1 - n2, by push_cast; rw [sub_mul, hn1, hn2]⟩

theorem IsIntMul.min {D : ℕ} {q1 q2 : ℚ} (h1 : IsIntMul D q1) (h2 : IsIntMul D q2) :
    IsIntMul D (min q1 q2) := by
  rcases le_total q1 q2 with h | h
  · rw [min_eq_left h]; exact h1
  · rw [min_eq_right h]; exact h2

theorem IsIntMul.sum {D : ℕ} {N : Finset String} {f : String → ℚ}
    (h : ∀ x ∈ N, IsIntMul D (f x)) : IsIntMul D (Finset.sum N f) := by
  classical
  refine Finset.sum_induction f (IsIntMul D) (fun a b ha hb => ha.add hb) IsIntMul.zero h

theorem isIntMul_of_den_dvd {q : ℚ} {D : ℕ} (h : q.den ∣ D) : IsIntMul D q := by
  rcases h with ⟨k, hk⟩
  refine ⟨q.num * k, ?_⟩
  rw [hk]
  push_cast
  rw [← mul_assoc, Rat.mul_den_eq_num]

theorem denomProd_facts (L : CapList) :
    ∀ init : ℕ, 0 < init →
      0 < L.foldl (fun d e => d * e.2.den) init ∧
      init ∣ L.foldl (fun d e => d * e.2.den) init ∧
      ∀ e ∈ L, e.2.den ∣ L.foldl (fun d e => d * e.2.den) init := by
  induction L with
  | nil => exact fun init h => ⟨h, dvd_refl init, by simp⟩
  | cons a rest ih =>
    intro init hpos
    rw [List.foldl_cons]
    have hpos' : 0 < init * a.2.den := Nat.mul_pos hpos a.2.pos
    rcases ih (init * a.2.den) hpos' with ⟨h1, h2, h3⟩
    refine ⟨h1, dvd_trans (Dvd.intro a.2.den rfl) h2, ?_⟩
    intro e he
    rcases List.mem_cons.1 he with he' | he'
    · rw [he']
      exact dvd_trans (Dvd.intro_left init rfl) h2
    · exact h3 e he'

theorem denomProd_pos (L : CapList) : 0 < denomProd L :=
  (denomProd_facts L 1 Nat.one_pos).1

theorem den_dvd_denomProd {L : CapList} {e : (String × String) × ℚ} (he : e ∈ L) :
    e.2.den ∣ denomProd L :=
  (denomProd_facts L 1 Nat.one_pos).2.2 e he

theorem capFun_nonneg {L : CapList} (h : ∀ e ∈ L, 0 ≤ e.2) (u v : String) :
    0 ≤ capFun L u v := by
  rw [capFun]
  rcases hlk : L.lookup (u, v) with _ | c
  · simp
  · have := lookup_eq_some_mem hlk
    simpa using h _ this

theorem capFun_int (L : CapList) (u v : String) :
    IsIntMul (denomProd L) (capFun L u v) := by
  rw [capFun]
  rcases hlk : L.lookup (u, v) with _ | c
  · exact IsIntMul.zero
  · have := lookup_eq_some_mem hlk
    exact isIntMul_of_den_dvd (den_dvd_denomProd this)

theorem mem_addItem {α : Type _} [DecidableEq α] {l : List α} {a x : α} :
    (x ∈ if a ∈ l then l else l ++ [a]) ↔ x ∈ l ∨ x = a := by
  split_ifs with h
  · exact ⟨Or.inl, fun hx => hx.elim id (fun he => he ▸ h)⟩
  · simp [List.mem_append]

theorem mem_arcsOf_aux (L : CapList) :
    ∀ (init : List (String × String)) (x : String × String),
      x ∈ L.foldl
        (fun acc e =>
          let acc' := if (e.1.1, e.1.2) ∈ acc then acc else acc ++ [(e.1.1, e.1.2)]
          if (e.1.2, e.1.1) ∈ acc' then acc' else acc' ++ [(e.1.2, e.1.1)]) init ↔
      x ∈ init ∨ ∃ e ∈ L, x = (e.1.1, e.1.2) ∨ x = (e.1.2, e.1.1) := by
  induction L with
  | nil => simp
  | cons a rest ih =>
    intro init x
    rw [List.foldl_cons, ih]
    have hstep :
        (x ∈ (let acc' := if (a.1.1, a.1.2) ∈ init then init else init ++ [(a.1.1, a.1.2)]
              if (a.1.2, a.1.1) ∈ acc' then acc' else acc' ++ [(a.1.2, a.1.1)])) ↔
          (x ∈ init ∨ x = (a.1.1, a.1.2)) ∨ x = (a.1.2, a.1.1) := by
      show (x ∈ if (a.1.2, a.1.1) ∈ (if (a.1.1, a.1.2) ∈ init then init else init ++ [(a.1.1, a.1.2)])
          then (if (a.1.1, a.1.2) ∈ init then init else init ++ [(a.1.1, a.1.2)])
          else (if (a.1.1, a.1.2) ∈ init then init else init ++ [(a.1.1, a.1.2)]) ++ [(a.1.2, a.1.1)]) ↔ _
      by_cases h1 : (a.1.1, a.1.2) ∈ init
      · simp only [if_pos h1]
        by_cases h2 : (a.1.2, a.1.1) ∈ init
        · simp only [if_pos h2]
          constructor
          · exact fun hx => Or.inl (Or.inl hx)
          · rintro ((hx | rfl) | rfl)
            · exact hx
            · exact h1
            · exact h2
        · simp only [if_neg h2]
          constructor
          · intro hx
            rcases List.mem_append.1 hx with hx | hx
            · exact Or.inl (Or.inl hx)
            · exact Or.inr (List.mem_singleton.1 hx)
          · rintro ((hx | rfl) | rfl)
            · exact List.mem_append_left _ hx
            · exact List.mem_append_left _ h1
            · exact List.mem_append_right _ (List.mem_singleton_self _)
      · simp only [if_neg h1]
        by_cases h2 : (a.1.2, a.1.1) ∈ init ++ [(a.1.1, a.1.2)]
        · simp only [if_pos h2]
          constructor
          · intro hx
            rcases List.mem_append.1 hx with hx | hx
            · exact Or.inl (Or.inl hx)
            · exact Or.inl (Or.inr (List.mem_singleton.1 hx))
          · rintro ((hx | rfl) | rfl)
            · exact List.mem_append_left _ hx
            · exact List.mem_append_right _ (List.mem_singleton_self _)
            · exact h2
        · simp only [if_neg h2]
          constructor
          · intro hx
            rcases List.mem_append.1 hx with hx | hx
            · rcases List.mem_append.1 hx with hx | hx
              · exact Or.inl (Or.inl hx)
              · exact Or.inl (Or.inr (List.mem_singleton.1 hx))
            · exact Or.inr (List.mem_singleton.1 hx)
          · rintro ((hx | rfl) | rfl)
            · exact List.mem_append_left _ (List.mem_append_left _ hx)
            · exact List.mem_append_left _ (List.mem_append_right _ (List.mem_singleton_self _))
            · exact List.mem_append_right _ (List.mem_singleton_self _)
    rw [hstep]
    constructor
    · rintro (((hi | hx) | hx) | ⟨e, he, hx⟩)
      · exact Or.inl hi
      · exact Or.inr ⟨a, List.mem_cons_self a rest, Or.inl hx⟩
      · exact Or.inr ⟨a, List.mem_cons_self a rest, Or.inr hx⟩
      · exact Or.inr ⟨e, List.mem_cons_of_mem a he, hx⟩
    · rintro (hi | ⟨e, he, hx⟩)
      · exact Or.inl (Or.inl (Or.inl hi))
      · rcases List.mem_cons.1 he with he' | he'
        · rw [he'] at hx
          rcases hx with hx | hx
          · exact Or.inl (Or.inl (Or.inr hx))
          · exact Or.inl (Or.inr hx)
        · exact Or.inr ⟨e, he', hx⟩

theorem mem_arcsOf {L : CapList} {x : String × String} :
    x ∈ arcsOf L ↔ ∃ e ∈ L, x = (e.1.1, e.1.2) ∨ x = (e.1.2, e.1.1) := by
  rw [arcsOf, mem_arcsOf_aux]
  simp

theorem arcsOf_reverse {L : CapList} {u v : String} (h : (u, v) ∈ arcsOf L) :
    (v, u) ∈ arcsOf L := by
  rcases mem_arcsOf.1 h with ⟨e, he, hx | hx⟩
  · refine mem_arcsOf.2 ⟨e, he, Or.inr ?_⟩
    rw [Prod.mk.injEq] at hx ⊢
    exact ⟨hx.2, hx.1⟩
  · refine mem_arcsOf.2 ⟨e, he, Or.inl ?_⟩
    rw [Prod.mk.injEq] at hx ⊢
    exact ⟨hx.2, hx.1⟩

theorem arcsOf_mem_nodes {L : CapList} {u v : String} (h : (u, v) ∈ arcsOf L) :
    u ∈ nodesOf L ∧ v ∈ nodesOf L := by
  rcases mem_arcsOf.1 h with ⟨e, he, hx | hx⟩ <;> rw [Prod.mk.injEq] at hx
  · exact ⟨mem_nodesOf.2 ⟨e, he, Or.inl hx.1⟩, mem_nodesOf.2 ⟨e, he, Or.inr hx.2⟩⟩
  · exact ⟨mem_nodesOf.2 ⟨e, he, Or.inr hx.1⟩, mem_nodesOf.2 ⟨e, he, Or.inl hx.2⟩⟩

theorem key_mem_arcsOf {L : CapList} {e : (String × String) × ℚ} (he : e ∈ L) :
    (e.1.1, e.1.2) ∈ arcsOf L :=
  mem_arcsOf.2 ⟨e, he, Or.inl rfl⟩

theorem capFun_support {L : CapList} {u v : String} (h : capFun L u v ≠ 0) :
    (u, v) ∈ arcsOf L := by
  rw [capFun] at h
  rcases hlk : L.lookup (u, v) with _ | c
  · rw [hlk] at h
    simp at h
  · have hmem := lookup_eq_some_mem hlk
    have := key_mem_arcsOf hmem
    simpa using this

theorem foldl_min_le_init (r : String → String → ℚ) (l : List (String × String)) :
    ∀ init : ℚ, l.foldl (fun m x => min m (r x.1 x.2)) init ≤ init := by
  induction l with
  | nil => exact fun init => le_refl init
  | cons y rest ih =>
    intro init
    rw [List.foldl_cons]
    exact le_trans (ih (min init (r y.1 y.2))) (min_le_left _ _)

theorem foldl_min_le_mem (r : String → String → ℚ) {l : List (String × String)} :
    ∀ (init : ℚ) {x}, x ∈ l → l.foldl (fun m x => min m (r x.1 x.2)) init ≤ r x.1 x.2 := by
  induction l with
  | nil => intro init x hx; cases hx
  | cons y rest ih =>
    intro init x hx
    rw [List.foldl_cons]
    rcases List.mem_cons.1 hx with hx' | hx'
    · rw [hx']
      exact le_trans (foldl_min_le_init r rest _) (min_le_right _ _)
    · exact ih _ hx'

theorem foldl_min_pos (r : String → String → ℚ) {l : List (String × String)} :
    ∀ {init : ℚ}, 0 < init → (∀ x ∈ l, 0 < r x.1 x.2) →
      0 < l.foldl (fun m x => min m (r x.1 x.2)) init := by
  induction l with
  | nil => exact fun h _ => h
  | cons y rest ih =>
    intro init hinit hl
    rw [List.foldl_cons]
    exact ih (lt_min hinit (hl y (List.mem_cons_self _ _)))
      (fun x hx => hl x (List.mem_cons_of_mem _ hx))

theorem foldl_min_int {D : ℕ} (r : String → String → ℚ) {l : List (String × String)} :
    ∀ {init : ℚ}, IsIntMul D init → (∀ x ∈ l, IsIntMul D (r x.1 x.2)) →
      IsIntMul D (l.foldl (fun m x => min m (r x.1 x.2)) init) := by
  induction l with
  | nil => exact fun h _ => h
  | cons y rest ih =>
    intro init hinit hl
    rw [List.foldl_cons]
    exact ih (hinit.min (hl y (List.mem_cons_self _ _)))
      (fun x hx => hl x (List.mem_cons_of_mem _ hx))

theorem bottleneck_le {r : String → String → ℚ} {p : List (String × String)}
    {x : String × String} (hx : x ∈ p) : bottleneck r p ≤ r x.1 x.2 := by
  cases p with
  | nil => cases hx
  | cons y rest =>
    rw [bottleneck]
    rcases List.mem_cons.1 hx with hx' | hx'
    · rw [hx']
      exact foldl_min_le_init r rest _
    · exact foldl_min_le_mem r _ hx'

theorem bottleneck_pos {r : String → String → ℚ} {p : List (String × String)}
    (hne : p ≠ []) (h : ∀ x ∈ p, 0 < r x.1 x.2) : 0 < bottleneck r p := by
  cases p with
  | nil => exact absurd rfl hne
  | cons y rest =>
    rw [bottleneck]
    exact foldl_min_pos r (h y (List.mem_cons_self _ _))
      (fun x hx => h x (List.mem_cons_of_mem _ hx))

theorem bottleneck_int {D : ℕ} {r : String → String → ℚ} {p : List (String × String)}
    (hne : p ≠ []) (h : ∀ x ∈ p, IsIntMul D (r x.1 x.2)) :
    IsIntMul D (bottleneck r p) := by
  cases p with
  | nil => exact absurd rfl hne
  | cons y rest =>
    rw [bottleneck]
    exact foldl_min_int r (h y (List.mem_cons_self _ _))
      (fun x hx => h x (List.mem_cons_of_mem _ hx))

/-! ### Engine invariants -/

/-- Invariants of the residual-capacity function maintained by the engine:
non-negativity, the constant-sum relation between a pair and its reverse,
support inside the residual network's arcs, and integrality in units of
`1 / denomProd`. -/
structure ResInv (L : CapList) (r : String → String → ℚ) : Prop where
  nonneg : ∀ u v, 0 ≤ r u v
  skew : ∀ u v, r u v + r v u = capFun L u v + capFun L v u
  support : ∀ u v, r u v ≠ 0 → (u, v) ∈ arcsOf L
  integral : ∀ u v, IsIntMul (denomProd L) (r u v)

/-- Net flow currently carried by the ordered pair `(u, v)`: declared
capacity minus remaining residual. -/
def dnet (cap r : String → String → ℚ) (u v : String) : ℚ := cap u v - r u v

/-- Net flow out of `v`, summed over the node set. -/
def netOut (N : Finset String) (cap r : String → String → ℚ) (v : String) : ℚ :=
  Finset.sum N (fun w => dnet cap r v w)

theorem resInv_init {L : CapList} (hval : ∀ e ∈ L, 0 ≤ e.2) :
    ResInv L (capFun L) := by
  refine ⟨capFun_nonneg hval, fun u v => rfl, ?_, fun u v => capFun_int L u v⟩
  intro u v h
  exact capFun_support h

theorem goodPath_ne_nil {arcs : List (String × String)} {r : String → String → ℚ}
    {p : List (String × String)} {s t : String}
    (hg : GoodPath arcs r p s t) (hst : s ≠ t) : p ≠ [] := by
  intro h
  rw [h] at hg
  exact hst hg.1

theorem goodPath_arc_nodes {L : CapList} {r : String → String → ℚ}
    {p : List (String × String)} {s t : String}
    (hg : GoodPath (arcsOf L) r p s t) {x : String × String} (hx : x ∈ p) :
    x.1 ∈ (nodesOf L).toFinset ∧ x.2 ∈ (nodesOf L).toFinset := by
  have harc : x ∈ arcsOf L := (hg.2.2 x hx).1
  have := @arcsOf_mem_nodes L x.1 x.2 (by simpa using harc)
  exact ⟨List.mem_toFinset.2 this.1, List.mem_toFinset.2 this.2⟩

theorem sum_path_ite {L : CapList} {r : String → String → ℚ}
    {p : List (String × String)} {s t : String}
    (hg : GoodPath (arcsOf L) r p s t) (hst : s ≠ t) (b : ℚ) (v : String) :
    Finset.sum (nodesOf L).toFinset
      (fun w => if (v, w) ∈ p then b else if (w, v) ∈ p then -b else 0)
      = if v = s then b else if v = t then -b else 0 := by
  have hch := hg.1
  have hnd := hg.2.1
  by_cases hvs : v = s
  · subst hvs
    rw [if_pos rfl]
    rcases chain_exists_out hch (List.mem_cons_self _ _) hst with ⟨w0, hw0⟩
    have hw0N : w0 ∈ (nodesOf L).toFinset := (goodPath_arc_nodes hg hw0).2
    rw [Finset.sum_eq_single_of_mem w0 hw0N]
    · rw [if_pos hw0]
    · intro w _ hwne
      rw [if_neg, if_neg]
      · exact fun hin => chain_no_into_start hnd hin
      · exact fun hout => hwne (chain_out_unique hch hnd hout hw0)
  · by_cases hvt : v = t
    · subst hvt
      rw [if_neg hvs, if_pos rfl]
      have hvmem : v ∈ s :: p.map Prod.snd := chain_last_mem hch
      rcases List.mem_cons.1 hvmem with h' | h'
      · exact absurd h' hvs
      · rcases List.mem_map.1 h' with ⟨y, hy, hy2⟩
        have hyin : (y.1, v) ∈ p := by
          have : y = (y.1, v) := by
            rw [← hy2]
          rw [← this]
          exact hy
        have hy1N : y.1 ∈ (nodesOf L).toFinset := (goodPath_arc_nodes hg hyin).1
        rw [Finset.sum_eq_single_of_mem y.1 hy1N]
        · rw [if_neg, if_pos hyin]
          exact fun hout => chain_no_out_last hch hnd hout
        · intro w _ hwne
          rw [if_neg, if_neg]
          · exact fun hin => hwne (chain_in_unique hch hnd hin hyin)
          · exact fun hout => chain_no_out_last hch hnd hout
    · rw [if_neg hvs, if_neg hvt]
      by_cases hvp : v ∈ s :: p.map Prod.snd
      · -- v is an internal path node: one arc out, one arc in, contributions cancel
        rcases chain_exists_out hch hvp hvt with ⟨wout, hwout⟩
        have hvsnd : v ∈ p.map Prod.snd := by
          rcases List.mem_cons.1 hvp with h' | h'
          · exact absurd h' hvs
          · exact h'
        rcases List.mem_map.1 hvsnd with ⟨y, hy, hy2⟩
        have hwin : (y.1, v) ∈ p := by
          have : y = (y.1, v) := by rw [← hy2]
          rw [← this]
          exact hy
        have hne : wout ≠ y.1 := by
          intro heq
          rw [heq] at hwout
          exact chain_no_antiparallel hch hnd hwout hwin
        have houtN : wout ∈ (nodesOf L).toFinset := (goodPath_arc_nodes hg hwout).2
        have hinN : y.1 ∈ (nodesOf L).toFinset := (goodPath_arc_nodes hg hwin).1
        have hsubs : ({wout, y.1} : Finset String) ⊆ (nodesOf L).toFinset := by
          intro x hx
          rcases Finset.mem_insert.1 hx with rfl | hx
          · exact houtN
          · rcases Finset.mem_singleton.1 hx with rfl
            exact hinN
        rw [← Finset.sum_subset hsubs]
        · rw [Finset.sum_pair hne, if_pos hwout, if_neg, if_pos hwin]
          · ring
          · exact fun hout => hne (chain_out_unique hch hnd hwout hout)
        · intro w _ hwnot
          rw [if_neg, if_neg]
          · intro hin
            exact hwnot (by
              rw [chain_in_unique hch hnd hin hwin]
              exact Finset.mem_insert.2 (Or.inr (Finset.mem_singleton_self y.1)))
          · intro hout
            exact hwnot (by
              rw [chain_out_unique hch hnd hout hwout]
              exact Finset.mem_insert_self wout {y.1})
      · -- v is not on the path at all
        apply Finset.sum_eq_zero
        intro w _
        rw [if_neg, if_neg]
        · intro hin
          exact hvp (List.mem_cons_of_mem s (List.mem_map_of_mem Prod.snd hin))
        · intro hout
          exact hvp (chain_fst_mem hch hout)

theorem augment_netOut {L : CapList} {r : String → String → ℚ}
    {p : List (String × String)} {s t : String}
    (hg : GoodPath (arcsOf L) r p s t) (hst : s ≠ t) (b : ℚ) (v : String) :
    netOut (nodesOf L).toFinset (capFun L) (augment r p b) v =
      netOut (nodesOf L).toFinset (capFun L) r v +
        (if v = s then b else if v = t then -b else 0) := by
  have key := sum_path_ite hg hst b v
  rw [netOut, netOut]
  have hpt : ∀ w, dnet (capFun L) (augment r p b) v w =
      dnet (capFun L) r v w + (if (v, w) ∈ p then b else if (w, v) ∈ p then -b else 0) := by
    intro w
    rw [dnet, dnet, augment]
    split_ifs with h1 h2 <;> ring
  rw [Finset.sum_congr rfl (fun w _ => hpt w), Finset.sum_add_distrib, key]

theorem augment_sumFrom {L : CapList} {r : String → String → ℚ}
    {p : List (String × String)} {s t : String}
    (hg : GoodPath (arcsOf L) r p s t) (hst : s ≠ t) (b : ℚ) :
    sumFrom (nodesOf L).toFinset (augment r p b) s =
      sumFrom (nodesOf L).toFinset r s - b := by
  have key := sum_path_ite hg hst b s
  rw [if_pos rfl] at key
  rw [sumFrom, sumFrom]
  have hpt : ∀ w, augment r p b s w =
      r s w - (if (s, w) ∈ p then b else if (w, s) ∈ p then -b else 0) := by
    intro w
    rw [augment]
    split_ifs with h1 h2 <;> ring
  rw [Finset.sum_congr rfl (fun w _ => hpt w), Finset.sum_sub_distrib, key]

theorem resInv_augment {L : CapList} {r : String → String → ℚ}
    {p : List (String × String)} {s t : String} (hinv : ResInv L r)
    (hg : GoodPath (arcsOf L) r p s t) (hst : s ≠ t) :
    ResInv L (augment r p (bottleneck r p)) := by
  have hne := goodPath_ne_nil hg hst
  have hbpos : 0 < bottleneck r p :=
    bottleneck_pos hne (fun x hx => (hg.2.2 x hx).2)
  have hbint : IsIntMul (denomProd L) (bottleneck r p) :=
    bottleneck_int hne (fun x hx => hinv.integral x.1 x.2)
  refine ⟨?_, ?_, ?_, ?_⟩
  · intro u v
    rw [augment]
    split_ifs with h1 h2
    · exact sub_nonneg.2 (bottleneck_le h1)
    · exact add_nonneg (hinv.nonneg u v) (le_of_lt hbpos)
    · exact hinv.nonneg u v
  · intro u v
    by_cases h1 : (u, v) ∈ p
    · have h2 : (v, u) ∉ p := fun h2 => chain_no_antiparallel hg.1 hg.2.1 h1 h2
      rw [augment, augment, if_pos h1, if_neg h2, if_pos h1]
      have := hinv.skew u v
      ring_nf
      ring_nf at this
      linarith
    · by_cases h2 : (v, u) ∈ p
      · rw [augment, augment, if_neg h1, if_pos h2, if_pos h2]
        have := hinv.skew u v
        ring_nf
        ring_nf at this
        linarith
      · rw [augment, augment, if_neg h1, if_neg h2, if_neg h2, if_neg h1]
        exact hinv.skew u v
  · intro u v hne0
    rw [augment] at hne0
    by_cases h1 : (u, v) ∈ p
    · exact (hg.2.2 _ h1).1
    · by_cases h2 : (v, u) ∈ p
      · exact arcsOf_reverse (hg.2.2 _ h2).1
      · rw [if_neg h1, if_neg h2] at hne0
        exact hinv.support u v hne0
  · intro u v
    rw [augment]
    split_ifs with h1 h2
    · exact (hinv.integral u v).sub hbint
    · exact (hinv.integral u v).add hbint
    · exact hinv.integral u v

/-- Saturation measure: the residual mass remaining on arcs out of the
source, counted in units of `1 / denomProd`; every augmentation strictly
decreases it. -/
def ekMeasure (L : CapList) (s : String) (r : String → String → ℚ) : ℕ :=
  (sumFrom (nodesOf L).toFinset r s * (denomProd L : ℚ)).num.toNat

theorem ekMeasure_decreases {L : CapList} {r : String → String → ℚ}
    {p : List (String × String)} {s t : String} (hinv : ResInv L r)
    (hg : GoodPath (arcsOf L) r p s t) (hst : s ≠ t) :
    ekMeasure L s (augment r p (bottleneck r p)) < ekMeasure L s r := by
  have hne := goodPath_ne_nil hg hst
  have hD : (0 : ℚ) < (denomProd L : ℚ) := by
    exact_mod_cast denomProd_pos L
  have hbpos : 0 < bottleneck r p :=
    bottleneck_pos hne (fun x hx => (hg.2.2 x hx).2)
  have hSint : IsIntMul (denomProd L) (sumFrom (nodesOf L).toFinset r s) :=
    IsIntMul.sum (fun w _ => hinv.integral s w)
  rcases hSint with ⟨n, hn⟩
  rcases bottleneck_int hne (fun x hx => hinv.integral x.1 x.2) with ⟨m, hm⟩
  have hm1 : 1 ≤ m := by
    have : (0 : ℚ) < (m : ℚ) := by
      rw [← hm]
      exact mul_pos hbpos hD
    exact_mod_cast this
  have hsub := augment_sumFrom hg hst (bottleneck r p)
  have hS1 : sumFrom (nodesOf L).toFinset (augment r p (bottleneck r p)) s *
      (denomProd L : ℚ) = ((n - m : ℤ) : ℚ) := by
    rw [hsub, sub_mul, hn, hm]
    push_cast
    ring
  have hSnonneg : 0 ≤ sumFrom (nodesOf L).toFinset (augment r p (bottleneck r p)) s :=
    Finset.sum_nonneg (fun w _ => (resInv_augment hinv hg hst).nonneg s w)
  have hnm : (0 : ℤ) ≤ n - m := by
    have : (0 : ℚ) ≤ ((n - m : ℤ) : ℚ) := by
      rw [← hS1]
      exact mul_nonneg hSnonneg (le_of_lt hD)
    exact_mod_cast this
  have hmeq : ekMeasure L s (augment r p (bottleneck r p)) = (n - m).toNat := by
    rw [ekMeasure, hS1, Rat.intCast_num]
  have hmeq2 : ekMeasure L s r = n.toNat := by
    rw [ekMeasure, hn, Rat.intCast_num]
  rw [hmeq, hmeq2]
  omega

/-- Full invariant of the engine state: residual invariants, flow
conservation at every internal node, and agreement of the accumulated flow
value with the net flow out of the source. -/
def EKInv (L : CapList) (s t : String) (st : (String → String → ℚ) × ℚ) : Prop :=
  ResInv L st.1 ∧
    (∀ v, v ≠ s → v ≠ t → netOut (nodesOf L).toFinset (capFun L) st.1 v = 0) ∧
    st.2 = netOut (nodesOf L).toFinset (capFun L) st.1 s

theorem ekLoop_spec {L : CapList} {s t : String} (hst : s ≠ t) :
    ∀ (fuel : ℕ) (r : String → String → ℚ) (F : ℚ),
      EKInv L s t (r, F) → ekMeasure L s r < fuel →
      EKInv L s t (ekLoop (arcsOf L) s t fuel r F) ∧
      bfs (arcsOf L) (ekLoop (arcsOf L) s t fuel r F).1 s t = none := by
  intro fuel
  induction fuel with
  | zero =>
    intro r F _ h
    omega
  | succ fuel ih =>
    intro r F hinv hmeas
    rcases hbfs : bfs (arcsOf L) r s t with _ | p
    · have hstop : ekLoop (arcsOf L) s t (fuel + 1) r F = (r, F) := by
        rw [ekLoop, hbfs]
      rw [hstop]
      exact ⟨hinv, hbfs⟩
    · have hg : GoodPath (arcsOf L) r p s t := (bfs_spec hst).1 p hbfs
      have heq : ekLoop (arcsOf L) s t (fuel + 1) r F =
          ekLoop (arcsOf L) s t fuel (augment r p (bottleneck r p))
            (F + bottleneck r p) := by
        rw [ekLoop, hbfs]
      rw [heq]
      have hinv' : EKInv L s t (augment r p (bottleneck r p), F + bottleneck r p) := by
        refine ⟨resInv_augment hinv.1 hg hst, ?_, ?_⟩
        · intro v hvs hvt
          show netOut (nodesOf L).toFinset (capFun L) (augment r p (bottleneck r p)) v = 0
          rw [augment_netOut hg hst (bottleneck r p) v, if_neg hvs, if_neg hvt, add_zero]
          exact hinv.2.1 v hvs hvt
        · show F + bottleneck r p =
            netOut (nodesOf L).toFinset (capFun L) (augment r p (bottleneck r p)) s
          rw [augment_netOut hg hst (bottleneck r p) s, if_pos rfl, ← hinv.2.2]
      exact ih _ _ hinv'
        (lt_of_lt_of_le (ekMeasure_decreases hinv.1 hg hst) (Nat.lt_succ_iff.1 hmeas))

theorem ekRun_spec {L : CapList} {s t : String} (hst : s ≠ t)
    (hval : ∀ e ∈ L, 0 ≤ e.2) :
    EKInv L s t (ekRun L s t) ∧ bfs (arcsOf L) (ekRun L s t).1 s t = none := by
  have hinit : EKInv L s t (capFun L, 0) := by
    refine ⟨resInv_init hval, ?_, ?_⟩
    · intro v _ _
      show netOut (nodesOf L).toFinset (capFun L) (capFun L) v = 0
      rw [netOut]
      apply Finset.sum_eq_zero
      intro w _
      rw [dnet]
      ring
    · show (0 : ℚ) = netOut (nodesOf L).toFinset (capFun L) (capFun L) s
      rw [netOut]
      symm
      apply Finset.sum_eq_zero
      intro w _
      rw [dnet]
      ring
  exact ekLoop_spec hst (ekFuel L s) (capFun L) 0 hinit (Nat.lt_succ_self _)

/-! ### Summation lemmas for the cut argument -/

theorem dnet_antisymm {L : CapList} {r : String → String → ℚ} (hinv : ResInv L r)
    (u v : String) : dnet (capFun L) r u v = -dnet (capFun L) r v u := by
  have := hinv.skew u v
  rw [dnet, dnet]
  linarith

theorem sum_sum_antisymm {d : String → String → ℚ} (h : ∀ u v, d u v = -d v u)
    (A : Finset String) :
    Finset.sum A (fun u => Finset.sum A (fun v => d u v)) = 0 := by
  have h1 : Finset.sum A (fun u => Finset.sum A (fun v => d u v)) =
      Finset.sum A (fun v => Finset.sum A (fun u => d u v)) := Finset.sum_comm
  have h2 : Finset.sum A (fun v => Finset.sum A (fun u => d u v)) =
      Finset.sum A (fun v => Finset.sum A (fun u => -d v u)) := by
    refine Finset.sum_congr rfl (fun v _ => Finset.sum_congr rfl (fun u _ => h u v))
  have h3 : Finset.sum A (fun v => Finset.sum A (fun u => -d v u)) =
      -Finset.sum A (fun v => Finset.sum A (fun u => d v u)) := by
    rw [← Finset.sum_neg_distrib]
    exact Finset.sum_congr rfl (fun v _ => by rw [Finset.sum_neg_distrib])
  have h4 := h1.trans (h2.trans h3)
  linarith

theorem value_eq_crossing {L : CapList} {r : String → String → ℚ} {s t : String}
    (hinv : ResInv L r)
    (hcons : ∀ v, v ≠ s → v ≠ t →
      netOut (nodesOf L).toFinset (capFun L) r v = 0)
    {S' : Finset String} (hS'N : S' ⊆ (nodesOf L).toFinset)
    (hsS : s ∈ S') (htS : t ∉ S') :
    netOut (nodesOf L).toFinset (capFun L) r s =
      Finset.sum S' (fun u =>
        Finset.sum ((nodesOf L).toFinset \ S') (fun w => dnet (capFun L) r u w)) := by
  have hsplit : ∀ u, netOut (nodesOf L).toFinset (capFun L) r u =
      Finset.sum S' (fun w => dnet (capFun L) r u w) +
      Finset.sum ((nodesOf L).toFinset \ S') (fun w => dnet (capFun L) r u w) := by
    intro u
    rw [netOut, ← Finset.sum_sdiff hS'N]
    ring
  have hval : netOut (nodesOf L).toFinset (capFun L) r s =
      Finset.sum S' (fun u => netOut (nodesOf L).toFinset (capFun L) r u) := by
    symm
    apply Finset.sum_eq_single_of_mem s hsS
    intro u _ hus
    exact hcons u hus (fun hut => htS (hut ▸ (by assumption)))
  rw [hval, Finset.sum_congr rfl (fun u _ => hsplit u), Finset.sum_add_distrib]
  have hzero : Finset.sum S' (fun u => Finset.sum S' (fun w => dnet (capFun L) r u w)) = 0 :=
    sum_sum_antisymm (dnet_antisymm hinv) S'
  rw [hzero, zero_add]

theorem sum_ite_pair (B : Finset String) (k : String × String) (c : ℚ) (u : String) :
    Finset.sum B (fun w => if (u, w) = k then c else 0) =
      if u = k.1 ∧ k.2 ∈ B then c else 0 := by
  by_cases hu : u = k.1
  · have hiff : ∀ w, ((u, w) = k) ↔ (w = k.2) := by
      intro w
      rw [show k = (k.1, k.2) from rfl, Prod.mk.injEq]
      constructor
      · exact fun h => h.2
      · exact fun h => ⟨hu, h⟩
    have : Finset.sum B (fun w => if (u, w) = k then c else 0) =
        Finset.sum B (fun w => if w = k.2 then c else 0) := by
      refine Finset.sum_congr rfl (fun w _ => ?_)
      by_cases hw : (u, w) = k
      · rw [if_pos hw, if_pos ((hiff w).1 hw)]
      · rw [if_neg hw, if_neg (fun h => hw ((hiff w).2 h))]
    rw [this, Finset.sum_ite_eq' B k.2 (fun _ => c)]
    by_cases hB : k.2 ∈ B
    · rw [if_pos hB, if_pos ⟨hu, hB⟩]
    · rw [if_neg hB, if_neg (fun h => hB h.2)]
  · rw [if_neg (fun h => hu h.1)]
    apply Finset.sum_eq_zero
    intro w _
    rw [if_neg]
    intro hw
    exact hu (congrArg Prod.fst hw)

theorem key_endpoints_mem_nodes {L : CapList} {e : (String × String) × ℚ} (he : e ∈ L) :
    e.1.1 ∈ nodesOf L ∧ e.1.2 ∈ nodesOf L :=
  ⟨mem_nodesOf.2 ⟨e, he, Or.inl rfl⟩, mem_nodesOf.2 ⟨e, he, Or.inr rfl⟩⟩

theorem sum_entry_eq_listSum {L : CapList} (hnd : (keysOf L).Nodup)
    (A B : Finset String) (F : String → String → ℚ → ℚ)
    (hF0 : ∀ u w, F u w 0 = 0) :
    Finset.sum A (fun u => Finset.sum B (fun w => F u w (capFun L u w))) =
      ((L.filter (fun e => decide (e.1.1 ∈ A ∧ e.1.2 ∈ B))).map
        (fun e => F e.1.1 e.1.2 e.2)).sum := by
  induction L with
  | nil =>
    simp only [List.filter_nil, List.map_nil, List.sum_nil]
    refine Finset.sum_eq_zero (fun u _ => Finset.sum_eq_zero (fun w _ => ?_))
    rw [show capFun [] u w = 0 from rfl, hF0]
  | cons e rest ih =>
    have hkey : e.1 ∉ keysOf rest := by
      rw [keysOf, List.map_cons] at hnd
      exact (List.nodup_cons.1 hnd).1
    have hnd' : (keysOf rest).Nodup := by
      rw [keysOf, List.map_cons] at hnd
      exact (List.nodup_cons.1 hnd).2
    have hrest0 : capFun rest e.1.1 e.1.2 = 0 := by
      rw [capFun]
      rcases hlk : rest.lookup (e.1.1, e.1.2) with _ | c
      · rfl
      · exfalso
        apply hkey
        have h1 := lookup_eq_some_mem hlk
        have h2 := List.mem_map_of_mem Prod.fst h1
        simpa [keysOf] using h2
    have hpt : ∀ u w, F u w (capFun (e :: rest) u w) =
        F u w (capFun rest u w) + (if (u, w) = e.1 then F e.1.1 e.1.2 e.2 else 0) := by
      intro u w
      by_cases hw : (u, w) = e.1
      · have hu : u = e.1.1 := congrArg Prod.fst hw
        have hw2 : w = e.1.2 := congrArg Prod.snd hw
        rw [if_pos hw]
        have hcap : capFun (e :: rest) u w = e.2 := by
          rw [capFun, List.lookup, show ((u, w) == e.1) = true from by
            rw [hw]; exact beq_self_eq_true e.1]
          rfl
        have hcaprest : capFun rest u w = 0 := by
          rw [hu, hw2]
          exact hrest0
        rw [hcap, hcaprest, hF0, zero_add, hu, hw2]
      · rw [if_neg hw, add_zero]
        have hcap : capFun (e :: rest) u w = capFun rest u w := by
          rw [capFun, capFun, List.lookup, show ((u, w) == e.1) = false from by
            rw [beq_eq_false_iff_ne]; exact hw]
        rw [hcap]
    have h1 : ∀ u, Finset.sum B (fun w => F u w (capFun (e :: rest) u w)) =
        Finset.sum B (fun w => F u w (capFun rest u w)) +
          (if u = e.1.1 ∧ e.1.2 ∈ B then F e.1.1 e.1.2 e.2 else 0) := by
      intro u
      rw [Finset.sum_congr rfl (fun w _ => hpt u w), Finset.sum_add_distrib,
        sum_ite_pair B e.1 (F e.1.1 e.1.2 e.2) u]
    have h2 : Finset.sum A (fun u =>
        (if u = e.1.1 ∧ e.1.2 ∈ B then F e.1.1 e.1.2 e.2 else 0)) =
        (if e.1.1 ∈ A ∧ e.1.2 ∈ B then F e.1.1 e.1.2 e.2 else 0) := by
      by_cases hB : e.1.2 ∈ B
      · have hcongr : ∀ u, (if u = e.1.1 ∧ e.1.2 ∈ B then F e.1.1 e.1.2 e.2 else 0) =
            (if u = e.1.1 then F e.1.1 e.1.2 e.2 else 0) := by
          intro u
          by_cases hu : u = e.1.1
          · rw [if_pos ⟨hu, hB⟩, if_pos hu]
          · rw [if_neg (fun h => hu h.1), if_neg hu]
        rw [Finset.sum_congr rfl (fun u _ => hcongr u),
          Finset.sum_ite_eq' A e.1.1 (fun _ => F e.1.1 e.1.2 e.2)]
        by_cases hA : e.1.1 ∈ A
        · rw [if_pos hA, if_pos ⟨hA, hB⟩]
        · rw [if_neg hA, if_neg (fun h => hA h.1)]
      · rw [if_neg (fun h => hB h.2)]
        exact Finset.sum_eq_zero (fun u _ => if_neg (fun h => hB h.2))
    rw [Finset.sum_congr rfl (fun u _ => h1 u), Finset.sum_add_distrib, h2, ih hnd']
    by_cases hpred : e.1.1 ∈ A ∧ e.1.2 ∈ B
    · rw [if_pos hpred,
        @List.filter_cons_of_pos _ (fun e => decide (e.1.1 ∈ A ∧ e.1.2 ∈ B)) e rest
          (decide_eq_true hpred),
        List.map_cons, List.sum_cons]
      ring
    · rw [if_neg hpred, add_zero,
        @List.filter_cons_of_neg _ (fun e => decide (e.1.1 ∈ A ∧ e.1.2 ∈ B)) e rest
          (by simpa using hpred)]

theorem upsert_filter_sum (q : String × String → Prop) [DecidablePred q]
    (acc : CapList) (k : String × String) (c : ℚ) :
    (((upsert acc k c).filter (fun e => decide (q e.1))).map (fun e => e.2)).sum =
      ((acc.filter (fun e => decide (q e.1))).map (fun e => e.2)).sum +
        (if q k then c else 0) := by
  induction acc with
  | nil =>
    show (([(k, c)].filter (fun e => decide (q e.1))).map (fun e => e.2)).sum = _
    by_cases hq : q k
    · rw [@List.filter_cons_of_pos _ (fun e => decide (q e.1)) (k, c) []
        (decide_eq_true hq)]
      simp [hq]
    · rw [@List.filter_cons_of_neg _ (fun e => decide (q e.1)) (k, c) []
        (by simpa using hq)]
      simp [hq]
  | cons e rest ih =>
    by_cases he : e.1 = k
    · rw [show upsert (e :: rest) k c = (e.1, e.2 + c) :: rest from by
        rw [upsert, if_pos he]]
      by_cases hq : q k
      · have hqe : q e.1 := he ▸ hq
        rw [@List.filter_cons_of_pos _ (fun x => decide (q x.1)) (e.1, e.2 + c) rest
            (decide_eq_true hqe),
          show (e :: rest).filter (fun x => decide (q x.1)) =
            e :: rest.filter (fun x => decide (q x.1)) from
            @List.filter_cons_of_pos _ (fun x => decide (q x.1)) e rest
              (decide_eq_true hqe),
          List.map_cons, List.sum_cons, List.map_cons, List.sum_cons, if_pos hq]
        ring
      · have hqe : ¬q e.1 := fun h => hq (he ▸ h)
        rw [@List.filter_cons_of_neg _ (fun x => decide (q x.1)) (e.1, e.2 + c) rest
            (by simpa using hqe),
          show (e :: rest).filter (fun x => decide (q x.1)) =
            rest.filter (fun x => decide (q x.1)) from
            @List.filter_cons_of_neg _ (fun x => decide (q x.1)) e rest
              (by simpa using hqe),
          if_neg hq, add_zero]
    · rw [show upsert (e :: rest) k c = e :: upsert rest k c from by
        rw [upsert, if_neg he]]
      by_cases hqe : q e.1
      · rw [@List.filter_cons_of_pos _ (fun x => decide (q x.1)) e (upsert rest k c)
            (decide_eq_true hqe),
          show (e :: rest).filter (fun x => decide (q x.1)) =
            e :: rest.filter (fun x => decide (q x.1)) from
            @List.filter_cons_of_pos _ (fun x => decide (q x.1)) e rest
              (decide_eq_true hqe),
          List.map_cons, List.sum_cons, List.map_cons, List.sum_cons, ih]
        ring
      · rw [@List.filter_cons_of_neg _ (fun x => decide (q x.1)) e (upsert rest k c)
            (by simpa using hqe),
          show (e :: rest).filter (fun x => decide (q x.1)) =
            rest.filter (fun x => decide (q x.1)) from
            @List.filter_cons_of_neg _ (fun x => decide (q x.1)) e rest
              (by simpa using hqe),
          ih]

theorem aggAux_filter_sum (q : String × String → Prop) [DecidablePred q] :
    ∀ {edges : List (String × String × ℚ)} {acc L : CapList},
      aggAux acc edges = .ok L →
      ((L.filter (fun e => decide (q e.1))).map (fun e => e.2)).sum =
        ((acc.filter (fun e => decide (q e.1))).map (fun e => e.2)).sum +
        ((edges.filter (fun e => decide (q (e.1, e.2.1)))).map (fun e => e.2.2)).sum := by
  intro edges
  induction edges with
  | nil =>
    intro acc L h
    cases h
    simp
  | cons e rest ih =>
    intro acc L h
    rw [aggAux] at h
    by_cases hc : e.2.2 < 0
    · rw [if_pos hc] at h
      cases h
    · rw [if_neg hc] at h
      rw [ih h, upsert_filter_sum q acc (e.1, e.2.1) e.2.2]
      by_cases hq : q (e.1, e.2.1)
      · rw [if_pos hq,
          @List.filter_cons_of_pos _ (fun x => decide (q (x.1, x.2.1))) e rest
            (decide_eq_true hq),
          List.map_cons, List.sum_cons]
        ring
      · rw [if_neg hq, add_zero,
          @List.filter_cons_of_neg _ (fun x => decide (q (x.1, x.2.1))) e rest
            (by simpa using hq)]

theorem listSum_key_filter {L : CapList} (hnd : (keysOf L).Nodup) (k : String × String) :
    ((L.filter (fun e => decide (e.1 = k))).map (fun e => e.2)).sum = capFun L k.1 k.2 := by
  induction L with
  | nil => rfl
  | cons e rest ih =>
    have hkey : e.1 ∉ keysOf rest := by
      rw [keysOf, List.map_cons] at hnd
      exact (List.nodup_cons.1 hnd).1
    have hnd' : (keysOf rest).Nodup := by
      rw [keysOf, List.map_cons] at hnd
      exact (List.nodup_cons.1 hnd).2
    by_cases he : e.1 = k
    · rw [@List.filter_cons_of_pos _ (fun x => decide (x.1 = k)) e rest
        (decide_eq_true he)]
      have hrest : rest.filter (fun x => decide (x.1 = k)) = [] := by
        rw [List.filter_eq_nil]
        intro x hx
        simp only [decide_eq_true_eq]
        intro hxk
        exact hkey (he ▸ hxk ▸ List.mem_map_of_mem Prod.fst hx)
      rw [hrest, List.map_cons, List.sum_cons, List.map_nil, List.sum_nil, add_zero]
      rw [capFun, List.lookup, show ((k.1, k.2) == e.1) = true from by
        rw [show (k.1, k.2) = k from rfl, beq_iff_eq]; exact he.symm]
      rfl
    · rw [@List.filter_cons_of_neg _ (fun x => decide (x.1 = k)) e rest
        (by simpa using he), ih hnd']
      rw [capFun, capFun, List.lookup, show ((k.1, k.2) == e.1) = false from by
        rw [beq_eq_false_iff_ne]
        intro hk
        exact he (by rw [← hk])]

theorem aggAux_keys_complete {edges : List (String × String × ℚ)} :
    ∀ {acc L : CapList}, aggAux acc edges = .ok L →
      ∀ e ∈ edges, (e.1, e.2.1) ∈ keysOf L := by
  induction edges with
  | nil =>
    intro acc L h e he
    cases he
  | cons e0 rest ih =>
    intro acc L h e he
    rw [aggAux] at h
    by_cases hc : e0.2.2 < 0
    · rw [if_pos hc] at h
      cases h
    · rw [if_neg hc] at h
      rcases List.mem_cons.1 he with he' | he'
      · rw [he']
        exact aggAux_keys_mono h (mem_keysOf_upsert.2 (Or.inr rfl))
      · exact ih h e he'

theorem sum_filter_erase_zeros {l : List ((String × String) × ℚ)}
    (hnn : ∀ x ∈ l, ¬(0 < x.2) → x.2 = 0) (P : (String × String) × ℚ → Bool) :
    (((l.filter (fun x => decide (0 < x.2))).filter P).map (fun e => e.2)).sum =
      ((l.filter P).map (fun e => e.2)).sum := by
  induction l with
  | nil => rfl
  | cons x rest ih
  => by_cases hpos : 0 < x.2
     · rw [@List.filter_cons_of_pos _ (fun x => decide (0 < x.2)) x rest
         (decide_eq_true hpos)]
       by_cases hP : P x = true
       · rw [@List.filter_cons_of_pos _ P x (rest.filter (fun x => decide (0 < x.2))) hP,
           @List.filter_cons_of_pos _ P x rest hP,
           List.map_cons, List.sum_cons, List.map_cons, List.sum_cons,
           ih (fun y hy => hnn y (List.mem_cons_of_mem x hy))]
       · rw [@List.filter_cons_of_neg _ P x (rest.filter (fun x => decide (0 < x.2))) hP,
           @List.filter_cons_of_neg _ P x rest hP,
           ih (fun y hy => hnn y (List.mem_cons_of_mem x hy))]
     · rw [@List.filter_cons_of_neg _ (fun x => decide (0 < x.2)) x rest
         (by simpa using hpos)]
       have hx0 : x.2 = 0 := hnn x (List.mem_cons_self _ _) hpos
       by_cases hP : P x = true
       · rw [@List.filter_cons_of_pos _ P x rest hP,
           List.map_cons, List.sum_cons, hx0,
           ih (fun y hy => hnn y (List.mem_cons_of_mem x hy))]
         ring
       · rw [@List.filter_cons_of_neg _ P x rest hP,
           ih (fun y hy => hnn y (List.mem_cons_of_mem x hy))]

theorem mem_nodesOf_of_edges {edges : List (String × String × ℚ)} {L : CapList}
    (h : aggregate edges = .ok L) {x : String}
    (hx : ∃ e ∈ edges, e.1 = x ∨ e.2.1 = x) : x ∈ nodesOf L := by
  rcases hx with ⟨e, he, hor⟩
  have hkey := aggAux_keys_complete h e he
  rcases List.mem_map.1 hkey with ⟨en, hen, hkeq⟩
  rcases hor with hfst | hsnd
  · refine mem_nodesOf.2 ⟨en, hen, Or.inl ?_⟩
    rw [← hfst]
    exact (congrArg Prod.fst hkeq).symm
  · refine mem_nodesOf.2 ⟨en, hen, Or.inr ?_⟩
    rw [← hsnd]
    exact (congrArg Prod.snd hkeq).symm

theorem solve_valid_run {edges : List (String × String × ℚ)} {s t : String}
    (hval : ValidInput edges s t) :
    ∃ L : CapList, aggregate edges = .ok L ∧ (keysOf L).Nodup ∧
      (∀ e ∈ L, 0 ≤ e.2) ∧ s ∈ nodesOf L ∧ t ∈ nodesOf L ∧
      solve_max_flow edges s t =
        .ok ⟨(ekRun L s t).2, extractFlows L (ekRun L s t).1⟩ ∧
      EKInv L s t (ekRun L s t) ∧
      bfs (arcsOf L) (ekRun L s t).1 s t = none := by
  obtain ⟨hnn, hst, hsmem, htmem⟩ := hval
  obtain ⟨L, hL⟩ := aggregate_ok_of_nonneg hnn
  have hnd : (keysOf L).Nodup := aggAux_keys_nodup hL (by simp [keysOf])
  have hvals : ∀ e ∈ L, 0 ≤ e.2 := aggAux_values_nonneg hL (by simp)
  have hs : s ∈ nodesOf L := mem_nodesOf_of_edges hL hsmem
  have ht : t ∈ nodesOf L := mem_nodesOf_of_edges hL htmem
  have hsol : solve_max_flow edges s t =
      .ok ⟨(ekRun L s t).2, extractFlows L (ekRun L s t).1⟩ := by
    rw [solve_max_flow_of_ok hL, solveOnNetwork, if_neg hst, if_pos ⟨hs, ht⟩]
  rcases ekRun_spec hst hvals with ⟨hinv, hsat⟩
  exact ⟨L, hL, hnd, hvals, hs, ht, hsol, hinv, hsat⟩

theorem cut_sum_eq {edges : List (String × String × ℚ)} {L : CapList}
    (hagg : aggregate edges = .ok L) (hnd : (keysOf L).Nodup) (Sl : List String) :
    Finset.sum ((nodesOf L).toFinset.filter (fun x => x ∈ Sl)) (fun u =>
      Finset.sum ((nodesOf L).toFinset \ (nodesOf L).toFinset.filter (fun x => x ∈ Sl))
        (fun w => capFun L u w)) = cutCapacity edges Sl := by
  rw [sum_entry_eq_listSum hnd _ _ (fun _ _ c => c) (fun _ _ => rfl)]
  have hfe : L.filter (fun e => decide (e.1.1 ∈ (nodesOf L).toFinset.filter (fun x => x ∈ Sl) ∧
        e.1.2 ∈ (nodesOf L).toFinset \ (nodesOf L).toFinset.filter (fun x => x ∈ Sl))) =
      L.filter (fun e => decide (e.1.1 ∈ Sl ∧ e.1.2 ∉ Sl)) := by
    apply List.filter_congr
    intro e he
    have hends := key_endpoints_mem_nodes he
    have h1 : e.1.1 ∈ (nodesOf L).toFinset := List.mem_toFinset.2 hends.1
    have h2 : e.1.2 ∈ (nodesOf L).toFinset := List.mem_toFinset.2 hends.2
    apply decide_eq_decide.2
    constructor
    · rintro ⟨ha, hb⟩
      refine ⟨(Finset.mem_filter.1 ha).2, ?_⟩
      intro hbS
      exact (Finset.mem_sdiff.1 hb).2 (Finset.mem_filter.2 ⟨h2, hbS⟩)
    · rintro ⟨ha, hb⟩
      refine ⟨Finset.mem_filter.2 ⟨h1, ha⟩, Finset.mem_sdiff.2 ⟨h2, ?_⟩⟩
      intro hbS
      exact hb (Finset.mem_filter.1 hbS).2
  rw [hfe]
  have := aggAux_filter_sum (fun k => k.1 ∈ Sl ∧ k.2 ∉ Sl) hagg
  simp only [List.filter_nil, List.map_nil, List.sum_nil, zero_add] at this
  rw [cutCapacity]
  exact this

theorem flow_value_vs_cut {edges : List (String × String × ℚ)} {L : CapList}
    {r : String → String → ℚ} {s t : String}
    (hagg : aggregate edges = .ok L) (hnd : (keysOf L).Nodup) (hinv : ResInv L r)
    (hcons : ∀ v, v ≠ s → v ≠ t →
      netOut (nodesOf L).toFinset (capFun L) r v = 0)
    (hsN : s ∈ nodesOf L) (Sl : List String) (hsS : s ∈ Sl) (htS : t ∉ Sl) :
    netOut (nodesOf L).toFinset (capFun L) r s ≤ cutCapacity edges Sl ∧
    ((∀ u w, u ∈ Sl → w ∉ Sl → r u w = 0) →
      netOut (nodesOf L).toFinset (capFun L) r s = cutCapacity edges Sl) := by
  have hsub : (nodesOf L).toFinset.filter (fun x => x ∈ Sl) ⊆ (nodesOf L).toFinset :=
    Finset.filter_subset _ _
  have hsS' : s ∈ (nodesOf L).toFinset.filter (fun x => x ∈ Sl) :=
    Finset.mem_filter.2 ⟨List.mem_toFinset.2 hsN, hsS⟩
  have htS' : t ∉ (nodesOf L).toFinset.filter (fun x => x ∈ Sl) :=
    fun h => htS (Finset.mem_filter.1 h).2
  have hcross := value_eq_crossing hinv hcons hsub hsS' htS'
  have hcut := cut_sum_eq hagg hnd Sl
  constructor
  · rw [hcross, ← hcut]
    refine Finset.sum_le_sum (fun u _ => Finset.sum_le_sum (fun w _ => ?_))
    rw [dnet]
    exact sub_le_self _ (hinv.nonneg u w)
  · intro hr0
    rw [hcross, ← hcut]
    refine Finset.sum_congr rfl (fun u hu => Finset.sum_congr rfl (fun w hw => ?_))
    rw [dnet, hr0 u w (Finset.mem_filter.1 hu).2 (fun hwS =>
      (Finset.mem_sdiff.1 hw).2 (Finset.mem_filter.2 ⟨(Finset.mem_sdiff.1 hw).1, hwS⟩)),
      sub_zero]

/-- C1: for every valid input, the maximum-flow value computed by
`solve_max_flow` equals the minimum total capacity over all cuts separating
the source from the sink: it is bounded above by the capacity of every such
cut and attained by the cut of nodes reachable in the final residual
network (max-flow/min-cut duality). -/
theorem solve_max_flow_maxflow_mincut (edges : List (String × String × ℚ))
    (s t : String) (hval : ValidInput edges s t) :
    ∃ res : SolveResult, solve_max_flow edges s t = .ok res ∧
      (∀ S : List String, s ∈ S → t ∉ S → res.flowValue ≤ cutCapacity edges S) ∧
      (∃ S : List String, s ∈ S ∧ t ∉ S ∧ res.flowValue = cutCapacity edges S) := by
  obtain ⟨L, hagg, hnd, hvals, hs, ht, hsol, hinv, hsat⟩ := solve_valid_run hval
  have hst : s ≠ t := hval.2.1
  refine ⟨⟨(ekRun L s t).2, extractFlows L (ekRun L s t).1⟩, hsol, ?_, ?_⟩
  · intro S hsS htS
    show (ekRun L s t).2 ≤ cutCapacity edges S
    rw [hinv.2.2]
    exact (flow_value_vs_cut hagg hnd hinv.1 hinv.2.1 hs S hsS htS).1
  · rcases (bfs_spec hst).2 hsat with ⟨V, hsV, htV, hclosed⟩
    refine ⟨V, hsV, htV, ?_⟩
    show (ekRun L s t).2 = cutCapacity edges V
    rw [hinv.2.2]
    refine (flow_value_vs_cut hagg hnd hinv.1 hinv.2.1 hs V hsV htV).2 ?_
    intro u w hu hw
    by_contra hne
    have hpos : 0 < (ekRun L s t).1 u w :=
      lt_of_le_of_ne (hinv.1.nonneg u w) (Ne.symm hne)
    exact hw (hclosed u w hu (hinv.1.support u w hne) hpos)

theorem solve_max_flow_maxflow_mincut_witness :
    ValidInput [("S", "A", (3 : ℚ)), ("S", "B", 2), ("A", "T", 2), ("B", "T", 3),
        ("A", "B", 1)] "S" "T" ∧
      ∃ res : SolveResult,
        solve_max_flow [("S", "A", (3 : ℚ)), ("S", "B", 2), ("A", "T", 2), ("B", "T", 3),
            ("A", "B", 1)] "S" "T" = .ok res ∧
        (∀ S : List String, "S" ∈ S → "T" ∉ S →
          res.flowValue ≤ cutCapacity [("S", "A", (3 : ℚ)), ("S", "B", 2), ("A", "T", 2),
            ("B", "T", 3), ("A", "B", 1)] S) ∧
        (∃ S : List String, "S" ∈ S ∧ "T" ∉ S ∧
          res.flowValue = cutCapacity [("S", "A", (3 : ℚ)), ("S", "B", 2), ("A", "T", 2),
            ("B", "T", 3), ("A", "B", 1)] S) :=
  ⟨by with_unfolding_all decide,
    solve_max_flow_maxflow_mincut _ "S" "T" (by with_unfolding_all decide)⟩

/-! ### Flow-extraction bridges (claims C2 and C3) -/

theorem extract_filter_sum {L : CapList} (hnd : (keysOf L).Nodup)
    {r : String → String → ℚ} (hrn : ∀ u w, 0 ≤ r u w)
    (kp : String × String → Prop) [DecidablePred kp]
    (A B : Finset String)
    (hiff : ∀ e ∈ L, kp e.1 ↔ (e.1.1 ∈ A ∧ e.1.2 ∈ B)) :
    (((extractFlows L r).filter (fun e => decide (kp e.1))).map (fun e => e.2)).sum =
      Finset.sum A (fun u => Finset.sum B (fun w => max 0 (capFun L u w - r u w))) := by
  rw [extractFlows]
  rw [sum_filter_erase_zeros ?hnn (fun e => decide (kp e.1))]
  case hnn =>
    intro x hx hlt
    rcases List.mem_map.1 hx with ⟨e, _, rfl⟩
    have h0 : (0 : ℚ) ≤ max 0 (e.2 - r e.1.1 e.1.2) := le_max_left 0 _
    exact le_antisymm (not_lt.1 hlt) h0
  rw [List.filter_map (fun e => (e.1, max 0 (e.2 - r e.1.1 e.1.2))) L]
  rw [sum_entry_eq_listSum hnd A B (fun u w c => max 0 (c - r u w)) ?hF0]
  case hF0 =>
    intro u w
    show max 0 ((0 : ℚ) - r u w) = 0
    rw [zero_sub]
    exact max_eq_left (neg_nonpos.2 (hrn u w))
  have hfe : L.filter ((fun e => decide (kp e.1)) ∘
        (fun e => (e.1, max 0 (e.2 - r e.1.1 e.1.2)))) =
      L.filter (fun e => decide (e.1.1 ∈ A ∧ e.1.2 ∈ B)) := by
    apply List.filter_congr
    intro e he
    show decide (kp e.1) = decide (e.1.1 ∈ A ∧ e.1.2 ∈ B)
    exact decide_eq_decide.2 (hiff e he)
  rw [hfe, List.map_map]
  rfl

theorem extract_inflow {L : CapList} (hnd : (keysOf L).Nodup)
    {r : String → String → ℚ} (hrn : ∀ u w, 0 ≤ r u w) (v : String) :
    inflowTo (extractFlows L r) v =
      Finset.sum (nodesOf L).toFinset (fun u => max 0 (capFun L u v - r u v)) := by
  rw [inflowTo,
    extract_filter_sum hnd hrn (fun k => k.2 = v) (nodesOf L).toFinset ({v} : Finset String) ?_]
  · rw [Finset.sum_congr rfl
      (fun u _ => Finset.sum_singleton (fun w => max 0 (capFun L u w - r u w)) v)]
  · intro e he
    constructor
    · intro hk
      exact ⟨List.mem_toFinset.2 (key_endpoints_mem_nodes he).1, Finset.mem_singleton.2 hk⟩
    · intro hk
      exact Finset.mem_singleton.1 hk.2

theorem extract_outflow {L : CapList} (hnd : (keysOf L).Nodup)
    {r : String → String → ℚ} (hrn : ∀ u w, 0 ≤ r u w) (v : String) :
    outflowFrom (extractFlows L r) v =
      Finset.sum (nodesOf L).toFinset (fun w => max 0 (capFun L v w - r v w)) := by
  rw [outflowFrom,
    extract_filter_sum hnd hrn (fun k => k.1 = v) ({v} : Finset String) (nodesOf L).toFinset ?_]
  · rw [Finset.sum_singleton]
  · intro e he
    constructor
    · intro hk
      exact ⟨Finset.mem_singleton.2 hk, List.mem_toFinset.2 (key_endpoints_mem_nodes he).2⟩
    · intro hk
      exact Finset.mem_singleton.1 hk.1

theorem max_sub_max_of_neg {x y : ℚ} (h : y = -x) : max 0 x - max 0 y = x := by
  rcases le_total 0 x with hx | hx
  · rw [max_eq_right hx, max_eq_left (by rw [h]; linarith)]
    ring
  · rw [max_eq_left hx, max_eq_right (by rw [h]; linarith)]
    rw [h]
    ring

/-- C2: in the flow assignment returned by `solve_max_flow`, every node
other than the source and the sink has total incoming realized flow equal
to total outgoing realized flow (flow conservation). -/
theorem solve_max_flow_conservation (edges : List (String × String × ℚ))
    (s t : String) (res : SolveResult) (hval : ValidInput edges s t)
    (hok : solve_max_flow edges s t = .ok res)
    (v : String) (hvs : v ≠ s) (hvt : v ≠ t) :
    inflowTo res.flows v = outflowFrom res.flows v := by
  obtain ⟨L, hagg, hnd, hvals, hs, ht, hsol, hinv, hsat⟩ := solve_valid_run hval
  rw [hsol] at hok
  rcases Except.ok.inj hok with rfl
  show inflowTo (extractFlows L (ekRun L s t).1) v =
    outflowFrom (extractFlows L (ekRun L s t).1) v
  rw [extract_inflow hnd hinv.1.nonneg v, extract_outflow hnd hinv.1.nonneg v]
  have hnet := hinv.2.1 v hvs hvt
  have hkey : ∀ u, max 0 (capFun L u v - (ekRun L s t).1 u v) -
      max 0 (capFun L v u - (ekRun L s t).1 v u) = dnet (capFun L) (ekRun L s t).1 u v := by
    intro u
    rw [show capFun L u v - (ekRun L s t).1 u v = dnet (capFun L) (ekRun L s t).1 u v from rfl,
      show capFun L v u - (ekRun L s t).1 v u = dnet (capFun L) (ekRun L s t).1 v u from rfl]
    exact max_sub_max_of_neg (by rw [dnet_antisymm hinv.1 u v]; ring)
  have hsum : Finset.sum (nodesOf L).toFinset
        (fun u => max 0 (capFun L u v - (ekRun L s t).1 u v)) -
      Finset.sum (nodesOf L).toFinset
        (fun u => max 0 (capFun L v u - (ekRun L s t).1 v u)) =
      Finset.sum (nodesOf L).toFinset (fun u => dnet (capFun L) (ekRun L s t).1 u v) := by
    rw [← Finset.sum_sub_distrib]
    exact Finset.sum_congr rfl (fun u _ => hkey u)
  have hzero : Finset.sum (nodesOf L).toFinset
      (fun u => dnet (capFun L) (ekRun L s t).1 u v) = 0 := by
    have : Finset.sum (nodesOf L).toFinset
        (fun u => dnet (capFun L) (ekRun L s t).1 u v) =
        Finset.sum (nodesOf L).toFinset
          (fun u => -dnet (capFun L) (ekRun L s t).1 v u) :=
      Finset.sum_congr rfl (fun u _ => by rw [dnet_antisymm hinv.1 u v])
    rw [this, Finset.sum_neg_distrib]
    rw [show Finset.sum (nodesOf L).toFinset
        (fun u => dnet (capFun L) (ekRun L s t).1 v u) =
        netOut (nodesOf L).toFinset (capFun L) (ekRun L s t).1 v from rfl, hnet]
    ring
  linarith [hsum, hzero]

theorem solve_max_flow_conservation_witness :
    ValidInput [("S", "A", (3 : ℚ)), ("S", "B", 2), ("A", "T", 2), ("B", "T", 3),
        ("A", "B", 1)] "S" "T" ∧
      solve_max_flow [("S", "A", (3 : ℚ)), ("S", "B", 2), ("A", "T", 2), ("B", "T", 3),
          ("A", "B", 1)] "S" "T" =
        .ok ⟨5, [(("S", "A"), 3), (("S", "B"), 2), (("A", "T"), 2), (("B", "T"), 3),
          (("A", "B"), 1)]⟩ ∧
      inflowTo [(("S", "A"), (3 : ℚ)), (("S", "B"), 2), (("A", "T"), 2), (("B", "T"), 3),
          (("A", "B"), 1)] "A" =
        outflowFrom [(("S", "A"), (3 : ℚ)), (("S", "B"), 2), (("A", "T"), 2), (("B", "T"), 3),
          (("A", "B"), 1)] "A" :=
  ⟨by with_unfolding_all decide, by with_unfolding_all decide,
    solve_max_flow_conservation
      [("S", "A", (3 : ℚ)), ("S", "B", 2), ("A", "T", 2), ("B", "T", 3), ("A", "B", 1)]
      "S" "T"
      ⟨5, [(("S", "A"), 3), (("S", "B"), 2), (("A", "T"), 2), (("B", "T"), 3),
        (("A", "B"), 1)]⟩
      (by with_unfolding_all decide) (by with_unfolding_all decide) "A"
      (by with_unfolding_all decide) (by with_unfolding_all decide)⟩

theorem aggCap_eq_capFun {edges : List (String × String × ℚ)} {L : CapList}
    (hagg : aggregate edges = .ok L) (hnd : (keysOf L).Nodup) (u v : String) :
    aggCap edges u v = capFun L u v := by
  have h1 := aggAux_filter_sum (fun k => k = (u, v)) hagg
  simp only [List.filter_nil, List.map_nil, List.sum_nil, zero_add] at h1
  have h2 : ((L.filter (fun e => decide (e.1 = (u, v)))).map (fun e => e.2)).sum =
      capFun L u v := listSum_key_filter hnd (u, v)
  have h3 : (edges.filter (fun e => decide ((e.1, e.2.1) = (u, v)))) =
      (edges.filter (fun e => decide (e.1 = u ∧ e.2.1 = v))) := by
    apply List.filter_congr
    intro e _
    apply decide_eq_decide.2
    rw [Prod.mk.injEq]
  rw [aggCap, ← h3, ← h1, h2]

/-- C3: for every ordered node pair, the realized flow carried by the
assignment returned by `solve_max_flow` is non-negative and does not exceed
the aggregated declared capacity of that pair (pairs missing from the
assignment carry zero flow). -/
theorem solve_max_flow_capacity_bounds (edges : List (String × String × ℚ))
    (s t : String) (res : SolveResult) (hval : ValidInput edges s t)
    (hok : solve_max_flow edges s t = .ok res) (u v : String) :
    0 ≤ flowOf res.flows u v ∧ flowOf res.flows u v ≤ aggCap edges u v := by
  obtain ⟨L, hagg, hnd, hvals, hs, ht, hsol, hinv, hsat⟩ := solve_valid_run hval
  rw [hsol] at hok
  rcases Except.ok.inj hok with rfl
  rw [aggCap_eq_capFun hagg hnd u v]
  have hcap0 : 0 ≤ capFun L u v := capFun_nonneg hvals u v
  show 0 ≤ flowOf (extractFlows L (ekRun L s t).1) u v ∧
    flowOf (extractFlows L (ekRun L s t).1) u v ≤ capFun L u v
  rcases hlk : (extractFlows L (ekRun L s t).1).lookup (u, v) with _ | q
  · rw [flowOf, hlk]
    exact ⟨le_refl 0, hcap0⟩
  · rw [flowOf, hlk]
    have hmem := lookup_eq_some_mem hlk
    rw [extractFlows] at hmem
    have hmem2 := List.mem_of_mem_filter hmem
    rcases List.mem_map.1 hmem2 with ⟨e, he, heq⟩
    have hkeq : e.1 = (u, v) := congrArg Prod.fst heq
    have hveq : max 0 (e.2 - (ekRun L s t).1 e.1.1 e.1.2) = q := congrArg Prod.snd heq
    have hcapL : capFun L u v = e.2 := by
      rw [capFun, lookup_eq_of_mem hnd (show ((u, v), e.2) ∈ L from by
        rw [show ((u, v), e.2) = e from by rw [← hkeq]]
        exact he)]
      rfl
    have hq : q = max 0 (e.2 - (ekRun L s t).1 u v) := by
      rw [← hveq, hkeq]
    rw [show (some q).getD 0 = q from rfl, hq, hcapL]
    constructor
    · exact le_max_left 0 _
    · apply max_le
      · rw [← hcapL]
        exact hcap0
      · exact sub_le_self _ (hinv.1.nonneg u v)

theorem solve_max_flow_capacity_bounds_witness :
    ValidInput [("a", "b", (3 : ℚ)), ("a", "b", 5)] "a" "b" ∧
      solve_max_flow [("a", "b", (3 : ℚ)), ("a", "b", 5)] "a" "b" =
        .ok ⟨8, [(("a", "b"), 8)]⟩ ∧
      (0 ≤ flowOf [(("a", "b"), (8 : ℚ))] "a" "b" ∧
        flowOf [(("a", "b"), (8 : ℚ))] "a" "b" ≤
          aggCap [("a", "b", (3 : ℚ)), ("a", "b", 5)] "a" "b") :=
  ⟨by with_unfolding_all decide, by with_unfolding_all decide,
    solve_max_flow_capacity_bounds [("a", "b", (3 : ℚ)), ("a", "b", 5)] "a" "b"
      ⟨8, [(("a", "b"), 8)]⟩ (by with_unfolding_all decide)
      (by with_unfolding_all decide) "a" "b"⟩

/-! ### Equivalence of the two solver variants (claim C10) -/

theorem upsert_not_mem {acc : CapList} {k : String × String} {c : ℚ}
    (h : k ∉ keysOf acc) : upsert acc k c = acc ++ [(k, c)] := by
  induction acc with
  | nil => rfl
  | cons e rest ih =>
    have hek : ¬e.1 = k := by
      intro heq
      exact h (heq ▸ List.mem_cons_self e.1 (keysOf rest))
    rw [upsert, if_neg hek, List.cons_append, ih (fun hm => h (List.mem_cons_of_mem _ hm))]

theorem setKey_not_mem {acc : CapList} {k : String × String} {c : ℚ}
    (h : k ∉ keysOf acc) : setKey acc k c = acc ++ [(k, c)] := by
  induction acc with
  | nil => rfl
  | cons e rest ih =>
    have hek : ¬e.1 = k := by
      intro heq
      exact h (heq ▸ List.mem_cons_self e.1 (keysOf rest))
    rw [setKey, if_neg hek, List.cons_append, ih (fun hm => h (List.mem_cons_of_mem _ hm))]

theorem aggAux_eq_foldl_setKey :
    ∀ {edges : List (String × String × ℚ)} {acc : CapList},
      (∀ e ∈ edges, 0 ≤ e.2.2) →
      ((edges.map (fun e => (e.1, e.2.1))).Nodup) →
      (∀ e ∈ edges, (e.1, e.2.1) ∉ keysOf acc) →
      aggAux acc edges =
        .ok (edges.foldl (fun acc e => setKey acc (e.1, e.2.1) e.2.2) acc) := by
  intro edges
  induction edges with
  | nil => exact fun _ _ _ => rfl
  | cons e rest ih =>
    intro acc hnn hnd hdisj
    rw [List.map_cons] at hnd
    have hc : ¬e.2.2 < 0 := not_lt.2 (hnn e (List.mem_cons_self _ _))
    rw [aggAux, if_neg hc, List.foldl_cons]
    have hek : (e.1, e.2.1) ∉ keysOf acc := hdisj e (List.mem_cons_self _ _)
    rw [upsert_not_mem hek, show setKey acc (e.1, e.2.1) e.2.2 = acc ++ [((e.1, e.2.1), e.2.2)]
      from setKey_not_mem hek]
    apply ih (fun e' he' => hnn e' (List.mem_cons_of_mem _ he')) (List.nodup_cons.1 hnd).2
    intro e' he'
    intro hmem
    rw [show keysOf (acc ++ [((e.1, e.2.1), e.2.2)]) = keysOf acc ++ [(e.1, e.2.1)] from by
      rw [keysOf, List.map_append]; rfl] at hmem
    rcases List.mem_append.1 hmem with hmem | hmem
    · exact hdisj e' (List.mem_cons_of_mem _ he') hmem
    · rcases List.mem_singleton.1 hmem with heq
      exact (List.nodup_cons.1 hnd).1 (heq ▸ List.mem_map_of_mem (fun e => (e.1, e.2.1)) he')

theorem buildCaps_eq_aggregate {edges : List (String × String × ℚ)}
    (hnn : ∀ e ∈ edges, 0 ≤ e.2.2)
    (hnd : (edges.map (fun e => (e.1, e.2.1))).Nodup) :
    aggregate edges = .ok (buildCaps edges) := by
  rw [aggregate, buildCaps]
  exact aggAux_eq_foldl_setKey hnn hnd (by simp [keysOf])

/-- C10: on a valid input whose edge list declares every ordered pair at
most once (so that summing and last-wins construction coincide) with no
negative capacity, the two backend variants return the same maximum-flow
value. -/
theorem solve_variants_agree (edges : List (String × String × ℚ)) (s t : String)
    (hval : ValidInput edges s t)
    (hnd : (edges.map (fun e => (e.1, e.2.1))).Nodup) :
    ∃ res1 res2 : SolveResult, solve_max_flow_v1 edges s t = .ok res1 ∧
      solve_max_flow edges s t = .ok res2 ∧ res1.flowValue = res2.flowValue := by
  have hb : aggregate edges = .ok (buildCaps edges) := buildCaps_eq_aggregate hval.1 hnd
  have heq : solve_max_flow_v1 edges s t = solve_max_flow edges s t := by
    rw [solve_max_flow_v1, solve_max_flow_of_ok hb]
  obtain ⟨L, hagg, hndL, hvals, hs, ht, hsol, hinv, hsat⟩ := solve_valid_run hval
  exact ⟨_, _, heq.trans hsol, hsol, rfl⟩

theorem solve_variants_agree_witness :
    ValidInput [("S", "A", (3 : ℚ)), ("S", "B", 2), ("A", "T", 2), ("B", "T", 3),
        ("A", "B", 1)] "S" "T" ∧
      (([("S", "A", (3 : ℚ)), ("S", "B", 2), ("A", "T", 2), ("B", "T", 3),
        ("A", "B", 1)].map (fun e => (e.1, e.2.1))).Nodup) ∧
      ∃ res1 res2 : SolveResult,
        solve_max_flow_v1 [("S", "A", (3 : ℚ)), ("S", "B", 2), ("A", "T", 2), ("B", "T", 3),
            ("A", "B", 1)] "S" "T" = .ok res1 ∧
        solve_max_flow [("S", "A", (3 : ℚ)), ("S", "B", 2), ("A", "T", 2), ("B", "T", 3),
            ("A", "B", 1)] "S" "T" = .ok res2 ∧
        res1.flowValue = res2.flowValue :=
  ⟨by with_unfolding_all decide, by with_unfolding_all decide,
    solve_variants_agree
      [("S", "A", (3 : ℚ)), ("S", "B", 2), ("A", "T", 2), ("B", "T", 3), ("A", "B", 1)]
      "S" "T" (by with_unfolding_all decide) (by with_unfolding_all decide)⟩
